import Mathlib

set_option linter.dupNamespace false

/-!
# Verification of the deserted normalize/denormalize engine

A shallow embedding of the deserted serialization library
(`src/lib/private/util`, `src/lib/converters`, `src/lib/deserted`), with
proofs of the specification's claims about it.

JavaScript object graphs are modelled as a heap (`Heap`, a list of
composite objects addressed by position) together with values (`JSVal`)
that are either primitives, functions, symbols, or heap addresses.  Object
identity — the notion the engine's `Map`-based dictionary keys on — is
address equality.  The engine's recursive walks are written fuel-indexed;
the top-level entry points supply fuel that is proved sufficient
(`ser_no_fuel_error`), which is precisely the termination guarantee the
specification states.

Pluggable pieces are embedded at their defaults, which is how every claim
exercises them:
* the function converter turns a function into its name and back into the
  string `"[function name]"`;
* the symbol converter turns a symbol into its global key (or description)
  and back into the global symbol for that key;
* the text codec is `JSON.stringify`/`JSON.parse`; its composite effect on
  an intermediate item is `jsonRoundTrip` below.
* custom-type converters are embedded as the canonical state-converter
  family: a typed heap object stores the state its converter extracts
  (`Converter.from` is state projection), and instantiation allocates a
  fresh typed object carrying the state (`Converter.to`).  The registry
  protocol — lookup by constructor name, later registrations overriding
  earlier ones — is embedded in full.
-/

namespace Deserted

/-- JavaScript primitive values: `null`, `undefined`, numbers, strings and
booleans.  Numbers are embedded as integers; no claim depends on float
behaviour. -/
inductive Prim where
  | vnull : Prim
  | vundef : Prim
  | vnum : Int → Prim
  | vstr : String → Prim
  | vbool : Bool → Prim
deriving DecidableEq, Repr

/-- A JavaScript value: a primitive, a function (carrying its `name`), a
symbol (carrying its global-registry key, if any, and its description), or
a reference into the heap.  Composites — plain objects, arrays and
custom-typed instances — live in the heap so that object identity is
observable. -/
inductive JSVal where
  | prim : Prim → JSVal
  | fn : String → JSVal
  | sym : Option String → String → JSVal
  | addr : Nat → JSVal
deriving DecidableEq, Repr

/-- A composite heap object: a plain object (constructor `Object`) with
ordered own enumerable fields, an array, or a custom-typed instance.  A
typed instance carries its constructor's runtime name and the state its
registered converter extracts from it (the canonical converter family of
this embedding; `Map`/`Set` instances, for example, carry their entries
array). -/
inductive HeapObj where
  | hobj : List (String × JSVal) → HeapObj
  | harr : List JSVal → HeapObj
  | htyped : String → JSVal → HeapObj
deriving DecidableEq, Repr

/-- The heap: composite objects addressed by list position. -/
abbrev Heap := List HeapObj

/-- The immediate child values of a heap object, in the order the engine
walks them: object fields in insertion order, array elements in index
order, and for a typed instance the single extracted-state value. -/
def childVals : HeapObj → List JSVal
  | .hobj fields => fields.map Prod.snd
  | .harr elems => elems
  | .htyped _ st => [st]

/-- A value's address (if composite) is within the heap. -/
def ValBound (H : Heap) : JSVal → Prop
  | .addr a => a < H.length
  | _ => True

instance (H : Heap) (v : JSVal) : Decidable (ValBound H v) := by
  cases v <;> simp [ValBound] <;> infer_instance

/-- Every child value stored in the heap points back into the heap. -/
def WFHeap (H : Heap) : Prop :=
  ∀ o ∈ H, ∀ c ∈ childVals o, ValBound H c

instance (H : Heap) : Decidable (WFHeap H) := by
  unfold WFHeap; infer_instance

/-- A path of string segments (property names or stringified array
indices) addressing a location in the intermediate tree
(`src/lib/private/util`, `type Path = string[]`). -/
abbrev Path := List String

/-- The intermediate tree (`SerItem` in the source): a tagged variant with
exactly one case active.  The extra `unknown` case stands for any parsed
value matching none of the recognized shapes (for example the `{}` that
`JSON.stringify` makes of `{val: undefined}`); `denormalize` rejects it
with the source's final `throw Error('unknown item')`. -/
inductive SerItem where
  | val : Prim → SerItem
  | ref : Path → SerItem
  | obj : List (String × SerItem) → SerItem
  | fn : SerItem → SerItem
  | sym : String → SerItem
  | arr : List SerItem → SerItem
  | proto : String → SerItem → SerItem
  | unknown : SerItem
deriving Repr

/-- `Arr.init`: `arr.slice(0, -1)` — everything but the last element. -/
def arrInit (p : Path) : Path := p.dropLast

/-- `Arr.last`: `arr[arr.length - 1]`.  On the empty array JavaScript
yields `undefined`, which when used as a property key coerces to the
string `"undefined"`; the embedding bakes that coercion in. -/
def arrLast (p : Path) : String := (p.getLast?).getD "undefined"

/-- A deferred fixup recorded during the first denormalize pass: either a
reference fixup (`{target, source}`) or a conversion fixup
(`{convertTo, path}`). -/
inductive Action where
  | ref : Path → Path → Action
  | conv : String → Path → Action
deriving DecidableEq, Repr

/-- `Action.depth`: the source tests `'path' in action` first, so a
conversion's depth is the length of its `path` and a reference's depth is
the length of its `source`. -/
def Action.depth : Action → Nat
  | .conv _ p => p.length
  | .ref _ s => s.length

/-- `Action.compare`: `depth(a2) - depth(a1)`, so that `Array.sort` puts
deeper actions first. -/
def Action.compare (a1 a2 : Action) : Int :=
  (Action.depth a2 : Int) - (Action.depth a1 : Int)

/-- One step of the stable descending-depth sort: insert `a` after every
already-placed action of greater or equal depth. -/
def insertAct : List Action → Action → List Action
  | [], a => [a]
  | b :: l, a =>
    if Action.depth b < Action.depth a then a :: b :: l
    else b :: insertAct l a

/-- `actions.sort(Action.compare)`: JavaScript's `Array.sort` is stable
(ES2019), so the result is the unique permutation sorted by descending
depth that keeps equal-depth actions in push order; `sortActions` computes
exactly that permutation. -/
def sortActions (l : List Action) : List Action :=
  l.foldl insertAct []

/-- The errors an engine call can surface.  `circular` is the
`noRefs=true` throw, `unregistered`/`noConverter` the missing-converter
throws of the two phases, `unknownItem` the denormalizer's final throw,
and `typeError` a JavaScript `TypeError` from dereferencing or assigning
through `undefined`/`null`/a primitive (the source runs in strict mode).
`outOfFuel` and `dangling` are artifacts of the embedding: the former is
proved unreachable from the top-level entry points on well-formed heaps,
the latter marks a dangling address, which a real JavaScript heap cannot
contain. -/
inductive Err where
  | outOfFuel : Err
  | dangling : Err
  | circular : Err
  | unregistered : String → Err
  | unknownItem : Err
  | noConverter : String → Err
  | typeError : Err
deriving DecidableEq, Repr

/-- A registered two-way converter, embedded as the canonical
state-converter family: `from` projects the state a typed heap object
stores, and `to` allocates a fresh instance whose constructor name is
`mkCtor` and whose stored state is the given value.  `mkCtor` is what
distinguishes two different converters registered under the same
identifier. -/
structure Converter where
  mkCtor : String
deriving DecidableEq, Repr

/-- `ConverterConfig`: a mapping from constructor names to converters. -/
abbrev Config := String → Option Converter

/-- `Object.assign(target, src)` on two converter configurations: a key
bound in `src` wins, anything else falls back to `target`. -/
def assignCfg (target src : Config) : Config :=
  fun k => (src k).orElse (fun _ => target k)

/-- `Converters.default`: the standard configuration registers `Date`,
`Boolean`, `String`, `Number` (valueOf-shaped), `Map`, `Set`
(iterable-shaped) and `Error` (picked-properties-shaped); each
reinstantiates its own class. -/
def defaultConverters : Config := fun n =>
  if n ∈ ["Date", "Boolean", "String", "Number", "Map", "Set", "Error"] then
    some ⟨n⟩
  else none

/-- Engine options.  The embedding keeps the one claim-relevant field,
`noRefs`; the function converter, symbol converter and stringifier are
embedded at their defaults (see the module docstring). -/
structure Options where
  noRefs : Bool
deriving DecidableEq, Repr

/-- The default options: `noRefs = false`. -/
def defaultOptions : Options := ⟨false⟩

/-- The engine: an immutable pair of a converter registry and options. -/
structure Deserted where
  converters : Config
  options : Options

/-- `Deserted.empty`: an engine with no pre-configured converters. -/
def Deserted.empty : Deserted := ⟨fun _ => none, defaultOptions⟩

/-- `Deserted.default`: an engine with the standard converters. -/
def Deserted.default : Deserted := ⟨defaultConverters, defaultOptions⟩

/-- `withConverters`: spread the current registry into a fresh object and
`Object.assign` each argument over it, in order; the engine itself is a
fresh instance with the old options. -/
def Deserted.withConverters (d : Deserted) (cfgs : List Config) : Deserted :=
  ⟨cfgs.foldl assignCfg d.converters, d.options⟩

/-- `withOptions`: a fresh engine with the same registry and the option
record spread over the old one — every field of the argument overrides. -/
def Deserted.withOptions (d : Deserted) (o : Options) : Deserted :=
  ⟨d.converters, { noRefs := o.noRefs }⟩

/-! ## The normalizer

`normalize` walks the input once, keyed by a `Map` from object identity to
canonical path (`Dict` below, keyed by heap address). -/

/-- The identity-tracking map of one normalize call: object identity
(heap address) to canonical path. -/
abbrev Dict := List (Nat × Path)

/-- Look an address up in the identity map. -/
def lookupD : Dict → Nat → Option Path
  | [], _ => none
  | e :: d, a => if e.1 = a then some e.2 else lookupD d a

/-- The addresses recorded in an identity map. -/
def keysD (d : Dict) : List Nat := d.map Prod.fst

/-- An identity map never records the same identity twice. -/
def KeysNodup (d : Dict) : Prop := (keysD d).Nodup

/-- Every recorded identity is a real heap address. -/
def KeysBound (H : Heap) (d : Dict) : Prop := ∀ k ∈ keysD d, k < H.length

/-- The default symbol converter's `from`: the symbol's global-registry
key when present, otherwise its description. -/
def symFrom (key : Option String) (descr : String) : String := key.getD descr

/-- Serialize every element of an array, extending the path with the
stringified index; the identity map threads left to right.  `f` is the
one-step serializer at the remaining fuel. -/
def serSeq (f : Dict → JSVal → Path → Except Err (SerItem × Dict)) :
    Dict → List JSVal → Path → Nat → Except Err (List SerItem × Dict)
  | dict, [], _, _ => .ok ([], dict)
  | dict, v :: vs, path, i =>
    match f dict v (path ++ [toString i]) with
    | .error e => .error e
    | .ok (it, d1) =>
      match serSeq f d1 vs path (i + 1) with
      | .error e => .error e
      | .ok (its, d2) => .ok (it :: its, d2)

/-- Serialize every own enumerable field of a plain object, extending the
path with the key. -/
def serFields (f : Dict → JSVal → Path → Except Err (SerItem × Dict)) :
    Dict → List (String × JSVal) → Path → Except Err (List (String × SerItem) × Dict)
  | dict, [], _ => .ok ([], dict)
  | dict, (k, v) :: fs, path =>
    match f dict v (path ++ [k]) with
    | .error e => .error e
    | .ok (it, d1) =>
      match serFields f d1 fs path with
      | .error e => .error e
      | .ok (its, d2) => .ok ((k, it) :: its, d2)

/-- The recursive worker `ser` of `normalize`, fuel-indexed.  The dispatch
order is the source's: functions first (converted, never identity-tracked),
then primitives, then symbols; then the identity-map lookup — a hit throws
under `noRefs` and otherwise yields a `Reference` — and only then is the
composite recorded (before its children are walked) and serialized as an
array, a plain object, or a registered type's extracted state tagged with
the constructor name. -/
def ser (H : Heap) (cv : Config) (opts : Options) :
    Nat → Dict → JSVal → Path → Except Err (SerItem × Dict)
  | 0, _, _, _ => .error .outOfFuel
  | fuel + 1, dict, v, path =>
    match v with
    | .fn name =>
      match ser H cv opts fuel dict (.prim (.vstr name)) path with
      | .error e => .error e
      | .ok (i, d') => .ok (.fn i, d')
    | .prim p => .ok (.val p, dict)
    | .sym key descr => .ok (.sym (symFrom key descr), dict)
    | .addr a =>
      match lookupD dict a with
      | some p => if opts.noRefs then .error .circular else .ok (.ref p, dict)
      | none =>
        let dict1 : Dict := (a, path) :: dict
        match H.get? a with
        | none => .error .dangling
        | some (.harr elems) =>
          match serSeq (ser H cv opts fuel) dict1 elems path 0 with
          | .error e => .error e
          | .ok (is, d') => .ok (.arr is, d')
        | some (.hobj fields) =>
          match serFields (ser H cv opts fuel) dict1 fields path with
          | .error e => .error e
          | .ok (is, d') => .ok (.obj is, d')
        | some (.htyped ctor st) =>
          match cv ctor with
          | none => .error (.unregistered ctor)
          | some _ =>
            match ser H cv opts fuel dict1 st path with
            | .error e => .error e
            | .ok (i, d') => .ok (.proto ctor i, d')

/-- The fuel the top-level entry points hand to `ser`; proved sufficient
for every well-formed heap (`ser_no_fuel_error`). -/
def serFuel (H : Heap) : Nat := 2 * H.length + 3

/-- `Deserted.normalize`: run `ser` from an empty identity map and the
root path. -/
def Deserted.normalize (d : Deserted) (H : Heap) (v : JSVal) : Except Err SerItem :=
  match ser H d.converters d.options (serFuel H) [] v [] with
  | .error e => .error e
  | .ok (t, _) => .ok t

/-! ## The denormalizer

`denormalize` makes one top-down pass (`des`) building a skeleton value in
a fresh heap while recording fixup actions, sorts the actions by
descending depth (`sortActions`), and applies them (`applyActions`). -/

/-- JavaScript string coercion, as used by the default function
converter's template literal.  Faithful for the values `denormalize` feeds
it on normalizer output (always a string); documented approximations for
shapes the engine never produces: a heap address prints as
`"[object Object]"` and a function as its name (a symbol would throw in
JavaScript — unreachable here because the default symbol converter
produces strings). -/
def coerceString : JSVal → String
  | .prim (.vstr s) => s
  | .prim (.vnum n) => toString n
  | .prim (.vbool true) => "true"
  | .prim (.vbool false) => "false"
  | .prim .vnull => "null"
  | .prim .vundef => "undefined"
  | .fn n => n
  | .sym _ d => d
  | .addr _ => "[object Object]"

/-- The default function converter's `to`: `` name => `[function ${name}]` ``. -/
def fnTo (x : JSVal) : JSVal :=
  .prim (.vstr ("[function " ++ coerceString x ++ "]"))

/-- Parse a decimal digit string (empty tail allowed), accumulating. -/
def digitsToNat : List Char → Nat → Option Nat
  | [], acc => some acc
  | c :: cs, acc =>
    if '0' ≤ c ∧ c ≤ '9' then digitsToNat cs (acc * 10 + (c.toNat - 48))
    else none

/-- The canonical array-index reading of a property key: `arr["2"]` hits
index 2, while non-canonical keys (`"02"`, `"x"`, `"-1"`) miss. -/
def idxOf (k : String) : Option Nat :=
  match k.data with
  | [] => none
  | c :: cs =>
    if c = '0' ∧ cs ≠ [] then none
    else digitsToNat (c :: cs) 0

/-- Reading one property off a value (`result[p]` inside `Path.find`):
fields of plain objects and canonical indices of arrays resolve; a missing
property, a property of a boxed primitive, of a function, of a symbol or
of an opaque typed instance (a `Map`'s entries are not properties) is
`undefined`.  Reading a property of `null` or `undefined` throws. -/
def getProp (H : Heap) (v : JSVal) (k : String) : Except Err JSVal :=
  match v with
  | .prim .vnull => .error .typeError
  | .prim .vundef => .error .typeError
  | .prim _ => .ok (.prim .vundef)
  | .fn _ => .ok (.prim .vundef)
  | .sym _ _ => .ok (.prim .vundef)
  | .addr a =>
    match H.get? a with
    | none => .ok (.prim .vundef)
    | some (.hobj fields) =>
      .ok (((fields.find? (fun kv => kv.1 = k)).map Prod.snd).getD (.prim .vundef))
    | some (.harr elems) =>
      match idxOf k with
      | some i => .ok ((elems.get? i).getD (.prim .vundef))
      | none => .ok (.prim .vundef)
    | some (.htyped _ _) => .ok (.prim .vundef)

/-- `Path.find`: walk `root[p0][p1]...`, returning `undefined` as soon as
the walk reaches `undefined`.  The source checks `undefined` at the top of
the loop, so dereferencing `null` (and only `null`) throws. -/
def find (H : Heap) : JSVal → Path → Except Err JSVal
  | v, [] => .ok v
  | v, p :: ps =>
    match v with
    | .prim .vundef => .ok (.prim .vundef)
    | .prim .vnull => .error .typeError
    | _ =>
      match getProp H v p with
      | .error e => .error e
      | .ok c => find H c ps

/-- Replace the first binding of `k` (JavaScript objects have unique
keys, so position is preserved), or append a new one. -/
def setField (k : String) (x : JSVal) : List (String × JSVal) → List (String × JSVal)
  | [] => [(k, x)]
  | kv :: fs => if kv.1 = k then (k, x) :: fs else kv :: setField k x fs

/-- Write `x` at index `i`, padding with `undefined` beyond the end as
JavaScript's sparse assignment would observable-ly do. -/
def setIdx (i : Nat) (x : JSVal) : List JSVal → List JSVal
  | [] => List.replicate i (.prim .vundef) ++ [x]
  | e :: es => match i with
    | 0 => x :: es
    | n + 1 => e :: setIdx n x es

/-- Property assignment `target[k] = x` (the source is an ES module and
runs in strict mode): assigning through `undefined`, `null`, a primitive
or a symbol throws a `TypeError`; plain objects and arrays update;
an expando property added to a function or to an opaque typed instance is
dropped, since nothing in the embedding can observe it. -/
def setProp (H : Heap) (target : JSVal) (k : String) (x : JSVal) : Except Err Heap :=
  match target with
  | .prim _ => .error .typeError
  | .sym _ _ => .error .typeError
  | .fn _ => .ok H
  | .addr a =>
    match H.get? a with
    | none => .ok H
    | some (.hobj fields) => .ok (H.set a (.hobj (setField k x fields)))
    | some (.harr elems) =>
      match idxOf k with
      | some i => .ok (H.set a (.harr (setIdx i x elems)))
      | none => .ok H
    | some (.htyped _ _) => .ok H

/-- `Path.copyProperty`: read the value at `sourcePath`, find the parent
of `targetPath`, and assign. -/
def copyProperty (H : Heap) (root : JSVal) (sourcePath targetPath : Path) :
    Except Err Heap :=
  match find H root sourcePath with
  | .error e => .error e
  | .ok sourceItem =>
    match find H root (arrInit targetPath) with
    | .error e => .error e
    | .ok targetItem => setProp H targetItem (arrLast targetPath) sourceItem

/-- The canonical converter's `to`: allocate a fresh instance of
`c.mkCtor` carrying the given state. -/
def convTo (c : Converter) (x : JSVal) (H : Heap) : JSVal × Heap :=
  (.addr H.length, H ++ [.htyped c.mkCtor x])

/-- Apply the sorted fixup actions in order.  A reference fixup is
`Path.copyProperty`; a conversion fixup looks the converter up (throwing
if absent), and either — at the root — returns the converted result at
once, discarding any remaining actions exactly as the source's early
`return` does, or replaces the parent's slot with the converted value. -/
def applyActions (cv : Config) : List Action → JSVal → Heap → Except Err (JSVal × Heap)
  | [], root, H => .ok (root, H)
  | .ref target source :: rest, root, H =>
    match copyProperty H root source target with
    | .error e => .error e
    | .ok H' => applyActions cv rest root H'
  | .conv name path :: rest, root, H =>
    match cv name with
    | none => .error (.noConverter name)
    | some c =>
      if path.length ≤ 0 then
        .ok (convTo c root H)
      else
        match find H root (arrInit path) with
        | .error e => .error e
        | .ok parent =>
          match getProp H parent (arrLast path) with
          | .error e => .error e
          | .ok cur =>
            match convTo c cur H with
            | (inst, H1) =>
              match setProp H1 parent (arrLast path) inst with
              | .error e => .error e
              | .ok H2 => applyActions cv rest root H2

/-- Denormalize every element of a serialized array. -/
def desSeq (f : Heap → List Action → SerItem → Path → Except Err (JSVal × Heap × List Action)) :
    Heap → List Action → List SerItem → Path → Nat →
    Except Err (List JSVal × Heap × List Action)
  | H, acts, [], _, _ => .ok ([], H, acts)
  | H, acts, it :: its, path, i =>
    match f H acts it (path ++ [toString i]) with
    | .error e => .error e
    | .ok (v, H1, a1) =>
      match desSeq f H1 a1 its path (i + 1) with
      | .error e => .error e
      | .ok (vs, H2, a2) => .ok (v :: vs, H2, a2)

/-- Denormalize every field of a serialized plain object. -/
def desFields (f : Heap → List Action → SerItem → Path → Except Err (JSVal × Heap × List Action)) :
    Heap → List Action → List (String × SerItem) → Path →
    Except Err (List (String × JSVal) × Heap × List Action)
  | H, acts, [], _ => .ok ([], H, acts)
  | H, acts, (k, it) :: its, path =>
    match f H acts it (path ++ [k]) with
    | .error e => .error e
    | .ok (v, H1, a1) =>
      match desFields f H1 a1 its path with
      | .error e => .error e
      | .ok (vs, H2, a2) => .ok ((k, v) :: vs, H2, a2)

mutual

/-- A computable size for intermediate items, spent as fuel by
`denormalize`'s structurally recursive pass. -/
def itemSize : SerItem → Nat
  | .val _ => 1
  | .ref _ => 1
  | .sym _ => 1
  | .unknown => 1
  | .fn i => itemSize i + 1
  | .proto _ s => itemSize s + 1
  | .obj fs => itemSizeFields fs + 1
  | .arr es => itemSizeList es + 1

/-- `itemSize` summed over an object's fields. -/
def itemSizeFields : List (String × SerItem) → Nat
  | [] => 0
  | (_, i) :: fs => itemSize i + itemSizeFields fs + 1

/-- `itemSize` summed over an array's elements. -/
def itemSizeList : List SerItem → Nat
  | [] => 0
  | i :: is => itemSize i + itemSizeList is + 1

end

/-- The recursive worker `des` of `denormalize`, fuel-indexed: primitives
return directly; functions and symbols go through the default converters;
a reference records a fixup and leaves `null` in the slot; objects and
arrays rebuild each child (allocating the composite in the fresh heap); a
typed state records a conversion fixup at the current path and places the
denormalized state there temporarily; anything else is the source's final
`throw Error('unknown item')`. -/
def des (cv : Config) (opts : Options) :
    Nat → Heap → List Action → SerItem → Path →
    Except Err (JSVal × Heap × List Action)
  | 0, _, _, _, _ => .error .outOfFuel
  | fuel + 1, H, acts, item, path =>
    match item with
    | .val p => .ok (.prim p, H, acts)
    | .fn inner =>
      match des cv opts fuel H acts inner path with
      | .error e => .error e
      | .ok (x, H', a') => .ok (fnTo x, H', a')
    | .sym s => .ok (.sym (some s) s, H, acts)
    | .ref source => .ok (.prim .vnull, H, acts ++ [.ref path source])
    | .obj fs =>
      match desFields (des cv opts fuel) H acts fs path with
      | .error e => .error e
      | .ok (fs', H', a') => .ok (.addr H'.length, H' ++ [.hobj fs'], a')
    | .arr es =>
      match desSeq (des cv opts fuel) H acts es path 0 with
      | .error e => .error e
      | .ok (vs, H', a') => .ok (.addr H'.length, H' ++ [.harr vs], a')
    | .proto name st => des cv opts fuel H (acts ++ [.conv name path]) st path
    | .unknown => .error .unknownItem

/-- `Deserted.denormalize`: the initial pass from the root path over a
fresh heap, then the sorted fixups.  The fuel `itemSize input + 1` is
spent structurally, so it never runs out (`des_no_fuel_error`). -/
def Deserted.denormalize (d : Deserted) (input : SerItem) : Except Err (JSVal × Heap) :=
  match des d.converters d.options (itemSize input + 1) [] [] input [] with
  | .error e => .error e
  | .ok (v, H, acts) => applyActions d.converters (sortActions acts) v H

/-- `Deserted.clone`: denormalize the normalized input. -/
def Deserted.clone (d : Deserted) (H : Heap) (v : JSVal) : Except Err (JSVal × Heap) :=
  match d.normalize H v with
  | .error e => .error e
  | .ok t => d.denormalize t

mutual

/-- The composite effect of the default stringifier —
`JSON.parse(JSON.stringify(tree))` — on an intermediate item.  JSON has no
`undefined`: `JSON.stringify` drops an object property whose value is
`undefined`, so the item `{val: undefined}` prints as `{}` and parses back
as a value matching none of the recognized item shapes (`unknown`).
Every other leaf of a normalized tree is a JSON-representable string,
integer, boolean or `null` and survives unchanged, as do the containers.
(The JSON text itself round-trips its parsed value exactly, so the string
layer is identified with the tree it denotes.) -/
def jsonRoundTrip : SerItem → SerItem
  | .val .vundef => .unknown
  | .val p => .val p
  | .ref p => .ref p
  | .sym s => .sym s
  | .fn i => .fn (jsonRoundTrip i)
  | .proto n s => .proto n (jsonRoundTrip s)
  | .obj fs => .obj (jsonRTFields fs)
  | .arr es => .arr (jsonRTList es)
  | .unknown => .unknown

/-- `jsonRoundTrip` on an object's field list. -/
def jsonRTFields : List (String × SerItem) → List (String × SerItem)
  | [] => []
  | (k, i) :: fs => (k, jsonRoundTrip i) :: jsonRTFields fs

/-- `jsonRoundTrip` on an array's element list. -/
def jsonRTList : List SerItem → List SerItem
  | [] => []
  | i :: is => jsonRoundTrip i :: jsonRTList is

end

/-- `AccPath H v π a`: following the child positions `π` from the value
`v` leads to the address `a`.  Positions index `childVals` — object
fields in walk order, array elements, a typed instance's extracted
state. -/
inductive AccPath (H : Heap) : JSVal → List Nat → Nat → Prop where
  | here (a : Nat) : AccPath H (.addr a) [] a
  | step (b : Nat) (o : HeapObj) (i : Nat) (c : JSVal) (π : List Nat) (a : Nat) :
      H.get? b = some o →
      (childVals o).get? i = some c →
      AccPath H c π a →
      AccPath H (.addr b) (i :: π) a

/-- The address `a` is reachable from `v`. -/
def VReach (H : Heap) (v : JSVal) (a : Nat) : Prop := ∃ π, AccPath H v π a

/-- The input contains two references to the same non-primitive value, or
a cycle: some address is reachable along two distinct access paths.  (A
cycle at `a` yields the paths `π` and `π ++ loop`.) -/
def Shared (H : Heap) (v : JSVal) : Prop :=
  ∃ a π₁ π₂, π₁ ≠ π₂ ∧ AccPath H v π₁ a ∧ AccPath H v π₂ a

/-- Every converter a reachable custom-typed instance needs is
registered. -/
def ReachRegistered (H : Heap) (cv : Config) (v : JSVal) : Prop :=
  ∀ a c st, VReach H v a → H.get? a = some (.htyped c st) → cv c ≠ none

/-- Pointwise characterization of folding `Object.assign` over a list of
configurations: the last configuration that binds a key wins, and a key
no configuration binds falls back to the base registry. -/
theorem foldl_assignCfg_apply (cfgs : List Config) (base : Config) (k : String) :
    (cfgs.foldl assignCfg base) k =
      (cfgs.reverse.findSome? (fun c => c k)).orElse (fun _ => base k) := by
  induction cfgs generalizing base with
  | nil => simp [List.findSome?]
  | cons c cs ih =>
    simp only [List.foldl_cons, List.reverse_cons, ih,
      List.findSome?_append, assignCfg]
    cases h : cs.reverse.findSome? (fun c => c k) <;>
      simp [List.findSome?, Option.orElse, h] <;>
      cases c k <;> simp

/-! ## Claim C9 -/

/-- C9: `withConverters` returns a new engine whose registry is the
`Object.assign` merge of the old registry with the argument fragments
(pointwise: the last fragment binding a key wins, with the old registry as
fallback) and whose options are the old engine's; `withOptions` returns a
new engine with the old registry and the merged (argument-overridden)
options.  The embedding is pure, so the original engine's registry and
options are left untouched by construction and calls on it behave
identically before and after. -/
theorem c9_with_combinators_merge (d : Deserted) (cfgs : List Config) (o : Options) :
    (d.withConverters cfgs).options = d.options ∧
    (∀ k, (d.withConverters cfgs).converters k =
      (cfgs.reverse.findSome? (fun c => c k)).orElse (fun _ => d.converters k)) ∧
    (d.withOptions o).converters = d.converters ∧
    (d.withOptions o).options = { noRefs := o.noRefs } := by
  refine ⟨rfl, fun k => ?_, rfl, rfl⟩
  exact foldl_assignCfg_apply cfgs d.converters k

/-! ## Claim C10 -/

/-- C10: the registry is keyed by the constructor's runtime name and a
later fragment binding the same identifier silently replaces an earlier
one: if `c1` and `c2` both bind `k`, `withConverters [c1, c2]` resolves
`k` to `c2`'s converter (registration itself is total — no error is
possible at registration time, only at use), and the engine's conversion
fixup for identifier `k` instantiates via `c2`'s converter. -/
theorem c10_duplicate_identifier_last_wins (d : Deserted) (c1 c2 : Config)
    (k : String) (cv1 cv2 : Converter)
    (h1 : c1 k = some cv1) (h2 : c2 k = some cv2) :
    (d.withConverters [c1, c2]).converters k = some cv2 ∧
    ∀ root H, applyActions (d.withConverters [c1, c2]).converters
        [.conv k []] root H = .ok (.addr H.length, H ++ [.htyped cv2.mkCtor root]) := by
  have hk : (d.withConverters [c1, c2]).converters k = some cv2 := by
    show ([c1, c2].foldl assignCfg d.converters) k = some cv2
    simp [List.foldl, assignCfg, h2, Option.orElse]
  refine ⟨hk, fun root H => ?_⟩
  simp [applyActions, hk, convTo]

/-- C10 witness: two distinct converters registered under the same
identifier `"K"`; the merged registry resolves `"K"` to the second. -/
theorem c10_witness :
    ((Deserted.empty.withConverters
      [fun n => if n = "K" then some ⟨"A"⟩ else none,
       fun n => if n = "K" then some ⟨"B"⟩ else none]).converters "K"
        = some ⟨"B"⟩) ∧
    applyActions (Deserted.empty.withConverters
      [fun n => if n = "K" then some ⟨"A"⟩ else none,
       fun n => if n = "K" then some ⟨"B"⟩ else none]).converters
      [.conv "K" []] (.prim .vnull) [] = .ok (.addr 0, [.htyped "B" (.prim .vnull)]) := by
  have h := c10_duplicate_identifier_last_wins Deserted.empty
    (fun n => if n = "K" then some ⟨"A"⟩ else none)
    (fun n => if n = "K" then some ⟨"B"⟩ else none)
    "K" ⟨"A"⟩ ⟨"B"⟩ (by simp) (by simp)
  exact ⟨h.1, h.2 (.prim .vnull) []⟩

/-! ## Claim C2 -/

/-- C2 is a code bug.  The heap below is the JavaScript value
`[shared, new Map([[1, shared]])]` with `shared = {v: 1}` (address 0; the
`Map` instance is address 3, its extracted entries array addresses 1–2,
the outer array address 4).  `normalize` serializes it to the tree shown,
whose `Reference(["0"])` sits inside the `Map`'s state.  The conversion
fixup at path `["1"]` and the reference fixup (source `["0"]`) both have
depth 1, the conversion was pushed first, so the stable sort applies the
conversion first; `Path.copyProperty` then walks `result["1"]["0"]`
through the freshly built opaque `Map` instance, reaches `undefined`, and
the assignment `undefined["1"] = …` throws a `TypeError` — the fixup pass
dies instead of restoring the shared identity the claim (and the spec's
guarantee) promises. -/
theorem c2_reference_fixup_crash :
    Deserted.default.normalize
      [ .hobj [("v", .prim (.vnum 1))],
        .harr [.prim (.vnum 1), .addr 0],
        .harr [.addr 1],
        .htyped "Map" (.addr 2),
        .harr [.addr 0, .addr 3] ] (.addr 4) =
      .ok (.arr [.obj [("v", .val (.vnum 1))],
                 .proto "Map" (.arr [.arr [.val (.vnum 1), .ref ["0"]]])]) ∧
    Deserted.default.denormalize
      (.arr [.obj [("v", .val (.vnum 1))],
             .proto "Map" (.arr [.arr [.val (.vnum 1), .ref ["0"]]])]) =
      .error .typeError :=
  ⟨rfl, rfl⟩

/-! ## Identity-map lemmas -/

/-- Both halves of the invariant the identity map keeps: no identity is
recorded twice, and every recorded identity is a heap address. -/
def DictOk (H : Heap) (d : Dict) : Prop := KeysNodup d ∧ KeysBound H d

/-- A failed lookup means the address is unrecorded. -/
theorem lookupD_eq_none {d : Dict} {a : Nat} :
    lookupD d a = none ↔ a ∉ keysD d := by
  induction d with
  | nil => simp [lookupD, keysD]
  | cons e d ih =>
    by_cases h : e.1 = a
    · subst h; simp [lookupD, keysD]
    · rw [show keysD (e :: d) = e.1 :: keysD d from rfl]
      simp only [lookupD, if_neg h, List.mem_cons]
      rw [ih]
      constructor
      · intro hn hor
        rcases hor with heq | hm
        · exact h heq.symm
        · exact hn hm
      · intro hn hm
        exact hn (Or.inr hm)

/-- A list of distinct naturals all below `n` has at most `n` elements. -/
theorem nodup_lt_length_le {l : List Nat} {n : Nat}
    (hnd : l.Nodup) (hlt : ∀ k ∈ l, k < n) : l.length ≤ n := by
  have hsub : l.toFinset ⊆ Finset.range n := by
    intro k hk
    simp only [Finset.mem_range]
    exact hlt k (List.mem_toFinset.mp hk)
  have := Finset.card_le_card hsub
  rwa [List.toFinset_card_of_nodup hnd, Finset.card_range] at this

/-- Inserting a fresh in-range identity keeps the map invariant, and the
map strictly grows towards the heap size. -/
theorem DictOk.insert {H : Heap} {d : Dict} {a : Nat} {p : Path}
    (h : DictOk H d) (ha : a < H.length) (hfresh : lookupD d a = none) :
    DictOk H ((a, p) :: d) ∧ d.length + 1 ≤ H.length := by
  have hmem : a ∉ keysD d := lookupD_eq_none.mp hfresh
  have hnd : KeysNodup ((a, p) :: d) := List.nodup_cons.mpr ⟨hmem, h.1⟩
  have hbd : KeysBound H ((a, p) :: d) := by
    intro k hk
    rcases List.mem_cons.mp hk with rfl | hk
    · exact ha
    · exact h.2 k hk
  refine ⟨⟨hnd, hbd⟩, ?_⟩
  have hlen := nodup_lt_length_le (l := a :: keysD d) (n := H.length) hnd
    (fun k hk => hbd k hk)
  simpa [keysD] using hlen

/-- Children of a heap object are in range on a well-formed heap. -/
theorem childVals_bound {H : Heap} (hwf : WFHeap H) {a : Nat} {o : HeapObj}
    (ha : H.get? a = some o) : ∀ c ∈ childVals o, ValBound H c :=
  hwf o (List.get?_mem ha)

/-- Success of `ser` extends the identity map (entries are only ever
prepended) and preserves its invariant. -/
theorem ser_ok_preserve (H : Heap) (cv : Config) (opts : Options)
    (hwf : WFHeap H) :
    ∀ (fuel : Nat) (dict : Dict) (v : JSVal) (path : Path) (t : SerItem)
      (dict' : Dict),
      ser H cv opts fuel dict v path = .ok (t, dict') →
      ValBound H v → DictOk H dict →
      (∃ Δ, dict' = Δ ++ dict) ∧ DictOk H dict' := by
  intro fuel
  induction fuel with
  | zero => intro dict v path t dict' h; simp [ser] at h
  | succ fuel ih =>
    -- the element-list helper, phrased for any child list of one object
    have hseq : ∀ (vs : List JSVal) (dict : Dict) (path : Path) (i : Nat)
        (ts : List SerItem) (dict' : Dict),
        serSeq (ser H cv opts fuel) dict vs path i = .ok (ts, dict') →
        (∀ v ∈ vs, ValBound H v) → DictOk H dict →
        (∃ Δ, dict' = Δ ++ dict) ∧ DictOk H dict' := by
      intro vs
      induction vs with
      | nil =>
        intro dict path i ts dict' h _ hd
        simp only [serSeq] at h
        cases h
        exact ⟨⟨[], rfl⟩, hd⟩
      | cons v vs ihs =>
        intro dict path i ts dict' h hvb hd
        simp only [serSeq] at h
        cases h1 : ser H cv opts fuel dict v (path ++ [toString i]) with
        | error e => rw [h1] at h; cases h
        | ok r =>
          obtain ⟨i1, d1⟩ := r
          rw [h1] at h
          dsimp only at h
          cases h2 : serSeq (ser H cv opts fuel) d1 vs path (i + 1) with
          | error e => rw [h2] at h; cases h
          | ok r2 =>
            obtain ⟨ts2, d2⟩ := r2
            rw [h2] at h
            dsimp only at h
            cases h
            obtain ⟨⟨Δ1, rfl⟩, hd1⟩ :=
              ih dict v (path ++ [toString i]) i1 d1 h1 (hvb v (by simp)) hd
            obtain ⟨⟨Δ2, rfl⟩, hd2⟩ :=
              ihs (Δ1 ++ dict) path (i + 1) ts2 dict' h2
                (fun v hv => hvb v (by simp [hv])) hd1
            exact ⟨⟨Δ2 ++ Δ1, by simp⟩, hd2⟩
    have hflds : ∀ (fs : List (String × JSVal)) (dict : Dict) (path : Path)
        (ts : List (String × SerItem)) (dict' : Dict),
        serFields (ser H cv opts fuel) dict fs path = .ok (ts, dict') →
        (∀ kv ∈ fs, ValBound H kv.2) → DictOk H dict →
        (∃ Δ, dict' = Δ ++ dict) ∧ DictOk H dict' := by
      intro fs
      induction fs with
      | nil =>
        intro dict path ts dict' h _ hd
        simp only [serFields] at h
        cases h
        exact ⟨⟨[], rfl⟩, hd⟩
      | cons kv fs ihs =>
        obtain ⟨k, v⟩ := kv
        intro dict path ts dict' h hvb hd
        simp only [serFields] at h
        cases h1 : ser H cv opts fuel dict v (path ++ [k]) with
        | error e => rw [h1] at h; cases h
        | ok r =>
          obtain ⟨i1, d1⟩ := r
          rw [h1] at h
          dsimp only at h
          cases h2 : serFields (ser H cv opts fuel) d1 fs path with
          | error e => rw [h2] at h; cases h
          | ok r2 =>
            obtain ⟨ts2, d2⟩ := r2
            rw [h2] at h
            dsimp only at h
            cases h
            obtain ⟨⟨Δ1, rfl⟩, hd1⟩ :=
              ih dict v (path ++ [k]) i1 d1 h1 (hvb (k, v) (by simp)) hd
            obtain ⟨⟨Δ2, rfl⟩, hd2⟩ :=
              ihs (Δ1 ++ dict) path ts2 dict' h2
                (fun kv hkv => hvb kv (by simp [hkv])) hd1
            exact ⟨⟨Δ2 ++ Δ1, by simp⟩, hd2⟩
    intro dict v path t dict' h hvb hd
    match v with
    | .prim p =>
      simp only [ser] at h
      cases h
      exact ⟨⟨[], rfl⟩, hd⟩
    | .sym k de =>
      simp only [ser] at h
      cases h
      exact ⟨⟨[], rfl⟩, hd⟩
    | .fn name =>
      simp only [ser] at h
      cases h1 : ser H cv opts fuel dict (.prim (.vstr name)) path with
      | error e => rw [h1] at h; cases h
      | ok r =>
        obtain ⟨i1, d1⟩ := r
        rw [h1] at h
        dsimp only at h
        cases h
        exact ih dict (.prim (.vstr name)) path i1 dict' h1 trivial hd
    | .addr a =>
      simp only [ser] at h
      cases hl : lookupD dict a with
      | some p =>
        rw [hl] at h
        dsimp only at h
        by_cases hnr : opts.noRefs
        · simp [hnr] at h
        · simp only [hnr, if_false] at h
          cases h
          exact ⟨⟨[], rfl⟩, hd⟩
      | none =>
        rw [hl] at h
        dsimp only at h
        have ha : a < H.length := hvb
        obtain ⟨hd1, -⟩ := DictOk.insert (p := path) hd ha hl
        cases hg : H.get? a with
        | none => rw [hg] at h; cases h
        | some o =>
          rw [hg] at h
          have hcb := childVals_bound hwf hg
          match o with
          | .harr elems =>
            dsimp only at h
            cases h2 : serSeq (ser H cv opts fuel) ((a, path) :: dict) elems path 0 with
            | error e => rw [h2] at h; cases h
            | ok r =>
              obtain ⟨ts2, d2⟩ := r
              rw [h2] at h
              dsimp only at h
              cases h
              obtain ⟨⟨Δ, hΔ⟩, hd2⟩ := hseq elems ((a, path) :: dict) path 0 ts2 dict' h2
                (fun c hc => hcb c (by simpa [childVals] using hc)) hd1
              exact ⟨⟨Δ ++ [(a, path)], by simp [hΔ]⟩, hd2⟩
          | .hobj fields =>
            dsimp only at h
            cases h2 : serFields (ser H cv opts fuel) ((a, path) :: dict) fields path with
            | error e => rw [h2] at h; cases h
            | ok r =>
              obtain ⟨ts2, d2⟩ := r
              rw [h2] at h
              dsimp only at h
              cases h
              obtain ⟨⟨Δ, hΔ⟩, hd2⟩ := hflds fields ((a, path) :: dict) path ts2 dict' h2
                (fun kv hkv => hcb kv.2 (by
                  simp only [childVals]
                  exact List.mem_map_of_mem Prod.snd hkv)) hd1
              exact ⟨⟨Δ ++ [(a, path)], by simp [hΔ]⟩, hd2⟩
          | .htyped ctor st =>
            dsimp only at h
            cases hc : cv ctor with
            | none => rw [hc] at h; cases h
            | some c =>
              rw [hc] at h
              dsimp only at h
              cases h2 : ser H cv opts fuel ((a, path) :: dict) st path with
              | error e => rw [h2] at h; cases h
              | ok r =>
                obtain ⟨i2, d2⟩ := r
                rw [h2] at h
                dsimp only at h
                cases h
                obtain ⟨⟨Δ, hΔ⟩, hd2⟩ := ih ((a, path) :: dict) st path i2 dict' h2
                  (hcb st (by simp [childVals])) hd1
                exact ⟨⟨Δ ++ [(a, path)], by simp [hΔ]⟩, hd2⟩

/-- In a duplicate-free identity map, a recorded entry is what lookup
returns. -/
theorem lookupD_of_mem_nodup {d : Dict} {a : Nat} {p : Path}
    (hnd : KeysNodup d) (hm : (a, p) ∈ d) : lookupD d a = some p := by
  induction d with
  | nil => cases hm
  | cons e d ih =>
    rcases List.mem_cons.mp hm with rfl | hm2
    · simp [lookupD]
    · have hne : e.1 ≠ a := by
        intro he
        have : a ∈ keysD d := by
          have : (a, p).1 ∈ keysD d := List.mem_map_of_mem Prod.fst hm2
          simpa using this
        have hnd' := List.nodup_cons.mp hnd
        rw [he] at hnd'
        exact hnd'.1 this
      rw [lookupD, if_neg hne]
      exact ih (List.nodup_cons.mp hnd).2 hm2

/-- Growth and invariant preservation for a whole element list. -/
theorem serSeq_ok_preserve (H : Heap) (cv : Config) (opts : Options)
    (hwf : WFHeap H) (fuel : Nat) :
    ∀ (vs : List JSVal) (dict : Dict) (path : Path) (i : Nat)
      (ts : List SerItem) (dict' : Dict),
      serSeq (ser H cv opts fuel) dict vs path i = .ok (ts, dict') →
      (∀ v ∈ vs, ValBound H v) → DictOk H dict →
      (∃ Δ, dict' = Δ ++ dict) ∧ DictOk H dict' := by
  intro vs
  induction vs with
  | nil =>
    intro dict path i ts dict' h _ hd
    simp only [serSeq] at h
    cases h
    exact ⟨⟨[], rfl⟩, hd⟩
  | cons v vs ihs =>
    intro dict path i ts dict' h hvb hd
    simp only [serSeq] at h
    cases h1 : ser H cv opts fuel dict v (path ++ [toString i]) with
    | error e => rw [h1] at h; cases h
    | ok r =>
      obtain ⟨i1, d1⟩ := r
      rw [h1] at h
      dsimp only at h
      cases h2 : serSeq (ser H cv opts fuel) d1 vs path (i + 1) with
      | error e => rw [h2] at h; cases h
      | ok r2 =>
        obtain ⟨ts2, d2⟩ := r2
        rw [h2] at h
        dsimp only at h
        cases h
        obtain ⟨⟨Δ1, rfl⟩, hd1⟩ := ser_ok_preserve H cv opts hwf fuel dict v
          (path ++ [toString i]) i1 d1 h1 (hvb v (by simp)) hd
        obtain ⟨⟨Δ2, rfl⟩, hd2⟩ := ihs (Δ1 ++ dict) path (i + 1) ts2 dict' h2
          (fun v hv => hvb v (by simp [hv])) hd1
        exact ⟨⟨Δ2 ++ Δ1, by simp⟩, hd2⟩

/-- Growth and invariant preservation for a whole field list. -/
theorem serFields_ok_preserve (H : Heap) (cv : Config) (opts : Options)
    (hwf : WFHeap H) (fuel : Nat) :
    ∀ (fs : List (String × JSVal)) (dict : Dict) (path : Path)
      (ts : List (String × SerItem)) (dict' : Dict),
      serFields (ser H cv opts fuel) dict fs path = .ok (ts, dict') →
      (∀ kv ∈ fs, ValBound H kv.2) → DictOk H dict →
      (∃ Δ, dict' = Δ ++ dict) ∧ DictOk H dict' := by
  intro fs
  induction fs with
  | nil =>
    intro dict path ts dict' h _ hd
    simp only [serFields] at h
    cases h
    exact ⟨⟨[], rfl⟩, hd⟩
  | cons kv fs ihs =>
    obtain ⟨k, v⟩ := kv
    intro dict path ts dict' h hvb hd
    simp only [serFields] at h
    cases h1 : ser H cv opts fuel dict v (path ++ [k]) with
    | error e => rw [h1] at h; cases h
    | ok r =>
      obtain ⟨i1, d1⟩ := r
      rw [h1] at h
      dsimp only at h
      cases h2 : serFields (ser H cv opts fuel) d1 fs path with
      | error e => rw [h2] at h; cases h
      | ok r2 =>
        obtain ⟨ts2, d2⟩ := r2
        rw [h2] at h
        dsimp only at h
        cases h
        obtain ⟨⟨Δ1, rfl⟩, hd1⟩ := ser_ok_preserve H cv opts hwf fuel dict v
          (path ++ [k]) i1 d1 h1 (hvb (k, v) (by simp)) hd
        obtain ⟨⟨Δ2, rfl⟩, hd2⟩ := ihs (Δ1 ++ dict) path ts2 dict' h2
          (fun kv hkv => hvb kv (by simp [hkv])) hd1
        exact ⟨⟨Δ2 ++ Δ1, by simp⟩, hd2⟩

/-- A successful first visit of an unrecorded composite leaves its entry
— address at the visiting path — in the final identity map. -/
theorem ser_addr_miss_mem (H : Heap) (cv : Config) (opts : Options)
    (hwf : WFHeap H) (fuel : Nat) (dict : Dict) (a : Nat) (path : Path)
    (t : SerItem) (dict' : Dict)
    (h : ser H cv opts fuel dict (.addr a) path = .ok (t, dict'))
    (hmiss : lookupD dict a = none) (hvb : ValBound H (.addr a))
    (hd : DictOk H dict) : (a, path) ∈ dict' := by
  match fuel with
  | 0 => cases h
  | fuel + 1 =>
    simp only [ser] at h
    rw [hmiss] at h
    dsimp only at h
    have ha : a < H.length := hvb
    obtain ⟨hd1, -⟩ := DictOk.insert (p := path) hd ha hmiss
    cases hg : H.get? a with
    | none => rw [hg] at h; cases h
    | some o =>
      rw [hg] at h
      have hcb := childVals_bound hwf hg
      match o with
      | .harr elems =>
        dsimp only at h
        cases h2 : serSeq (ser H cv opts fuel) ((a, path) :: dict) elems path 0 with
        | error e => rw [h2] at h; cases h
        | ok r =>
          obtain ⟨ts2, d2⟩ := r
          rw [h2] at h
          dsimp only at h
          cases h
          obtain ⟨⟨Δ, hΔ⟩, -⟩ := serSeq_ok_preserve H cv opts hwf fuel elems
            ((a, path) :: dict) path 0 ts2 dict' h2
            (fun c hc => hcb c (by simpa [childVals] using hc)) hd1
          rw [hΔ]
          simp
      | .hobj fields =>
        dsimp only at h
        cases h2 : serFields (ser H cv opts fuel) ((a, path) :: dict) fields path with
        | error e => rw [h2] at h; cases h
        | ok r =>
          obtain ⟨ts2, d2⟩ := r
          rw [h2] at h
          dsimp only at h
          cases h
          obtain ⟨⟨Δ, hΔ⟩, -⟩ := serFields_ok_preserve H cv opts hwf fuel fields
            ((a, path) :: dict) path ts2 dict' h2
            (fun kv hkv => hcb kv.2 (by
              simp only [childVals]
              exact List.mem_map_of_mem Prod.snd hkv)) hd1
          rw [hΔ]
          simp
      | .htyped ctor st =>
        dsimp only at h
        cases hc : cv ctor with
        | none => rw [hc] at h; cases h
        | some c =>
          rw [hc] at h
          dsimp only at h
          cases h2 : ser H cv opts fuel ((a, path) :: dict) st path with
          | error e => rw [h2] at h; cases h
          | ok r =>
            obtain ⟨i2, d2⟩ := r
            rw [h2] at h
            dsimp only at h
            cases h
            obtain ⟨⟨Δ, hΔ⟩, -⟩ := ser_ok_preserve H cv opts hwf fuel
              ((a, path) :: dict) st path i2 dict' h2
              (hcb st (by simp [childVals])) hd1
            rw [hΔ]
            simp

/-- A successful lookup means the address is recorded. -/
theorem lookupD_some_mem {d : Dict} {a : Nat} {p : Path}
    (h : lookupD d a = some p) : a ∈ keysD d := by
  induction d with
  | nil => cases h
  | cons e d ih =>
    by_cases he : e.1 = a
    · subst he; exact List.mem_cons.mpr (Or.inl rfl)
    · rw [lookupD, if_neg he] at h
      exact List.mem_cons.mpr (Or.inr (ih h))

/-- `ser` only ever prepends entries to the identity map (no hypotheses
needed). -/
theorem ser_ok_grow (H : Heap) (cv : Config) (opts : Options) :
    ∀ (fuel : Nat) (dict : Dict) (v : JSVal) (path : Path) (t : SerItem)
      (dict' : Dict),
      ser H cv opts fuel dict v path = .ok (t, dict') →
      ∃ Δ, dict' = Δ ++ dict := by
  intro fuel
  induction fuel with
  | zero => intro dict v path t dict' h; cases h
  | succ fuel ih =>
    have hseq : ∀ (vs : List JSVal) (dict : Dict) (path : Path) (i : Nat)
        (ts : List SerItem) (dict' : Dict),
        serSeq (ser H cv opts fuel) dict vs path i = .ok (ts, dict') →
        ∃ Δ, dict' = Δ ++ dict := by
      intro vs
      induction vs with
      | nil =>
        intro dict path i ts dict' h
        simp only [serSeq] at h
        cases h
        exact ⟨[], rfl⟩
      | cons v vs ihs =>
        intro dict path i ts dict' h
        simp only [serSeq] at h
        cases h1 : ser H cv opts fuel dict v (path ++ [toString i]) with
        | error e => rw [h1] at h; cases h
        | ok r =>
          obtain ⟨i1, d1⟩ := r
          rw [h1] at h
          dsimp only at h
          cases h2 : serSeq (ser H cv opts fuel) d1 vs path (i + 1) with
          | error e => rw [h2] at h; cases h
          | ok r2 =>
            obtain ⟨ts2, d2⟩ := r2
            rw [h2] at h
            dsimp only at h
            cases h
            obtain ⟨Δ1, rfl⟩ := ih dict v (path ++ [toString i]) i1 d1 h1
            obtain ⟨Δ2, rfl⟩ := ihs (Δ1 ++ dict) path (i + 1) ts2 dict' h2
            exact ⟨Δ2 ++ Δ1, by simp⟩
    have hflds : ∀ (fs : List (String × JSVal)) (dict : Dict) (path : Path)
        (ts : List (String × SerItem)) (dict' : Dict),
        serFields (ser H cv opts fuel) dict fs path = .ok (ts, dict') →
        ∃ Δ, dict' = Δ ++ dict := by
      intro fs
      induction fs with
      | nil =>
        intro dict path ts dict' h
        simp only [serFields] at h
        cases h
        exact ⟨[], rfl⟩
      | cons kv fs ihs =>
        obtain ⟨k, v⟩ := kv
        intro dict path ts dict' h
        simp only [serFields] at h
        cases h1 : ser H cv opts fuel dict v (path ++ [k]) with
        | error e => rw [h1] at h; cases h
        | ok r =>
          obtain ⟨i1, d1⟩ := r
          rw [h1] at h
          dsimp only at h
          cases h2 : serFields (ser H cv opts fuel) d1 fs path with
          | error e => rw [h2] at h; cases h
          | ok r2 =>
            obtain ⟨ts2, d2⟩ := r2
            rw [h2] at h
            dsimp only at h
            cases h
            obtain ⟨Δ1, rfl⟩ := ih dict v (path ++ [k]) i1 d1 h1
            obtain ⟨Δ2, rfl⟩ := ihs (Δ1 ++ dict) path ts2 dict' h2
            exact ⟨Δ2 ++ Δ1, by simp⟩
    intro dict v path t dict' h
    match v with
    | .prim p => simp only [ser] at h; cases h; exact ⟨[], rfl⟩
    | .sym k de => simp only [ser] at h; cases h; exact ⟨[], rfl⟩
    | .fn name =>
      simp only [ser] at h
      cases h1 : ser H cv opts fuel dict (.prim (.vstr name)) path with
      | error e => rw [h1] at h; cases h
      | ok r =>
        obtain ⟨i1, d1⟩ := r
        rw [h1] at h
        dsimp only at h
        cases h
        exact ih dict (.prim (.vstr name)) path i1 dict' h1
    | .addr a =>
      simp only [ser] at h
      cases hl : lookupD dict a with
      | some p =>
        rw [hl] at h
        dsimp only at h
        by_cases hnr : opts.noRefs
        · simp [hnr] at h
        · simp only [hnr, if_false] at h
          cases h
          exact ⟨[], rfl⟩
      | none =>
        rw [hl] at h
        dsimp only at h
        cases hg : H.get? a with
        | none => rw [hg] at h; cases h
        | some o =>
          rw [hg] at h
          match o with
          | .harr elems =>
            dsimp only at h
            cases h2 : serSeq (ser H cv opts fuel) ((a, path) :: dict) elems path 0 with
            | error e => rw [h2] at h; cases h
            | ok r =>
              obtain ⟨ts2, d2⟩ := r
              rw [h2] at h
              dsimp only at h
              cases h
              obtain ⟨Δ, hΔ⟩ := hseq elems ((a, path) :: dict) path 0 ts2 dict' h2
              exact ⟨Δ ++ [(a, path)], by simp [hΔ]⟩
          | .hobj fields =>
            dsimp only at h
            cases h2 : serFields (ser H cv opts fuel) ((a, path) :: dict) fields path with
            | error e => rw [h2] at h; cases h
            | ok r =>
              obtain ⟨ts2, d2⟩ := r
              rw [h2] at h
              dsimp only at h
              cases h
              obtain ⟨Δ, hΔ⟩ := hflds fields ((a, path) :: dict) path ts2 dict' h2
              exact ⟨Δ ++ [(a, path)], by simp [hΔ]⟩
          | .htyped ctor st =>
            dsimp only at h
            cases hc : cv ctor with
            | none => rw [hc] at h; cases h
            | some c =>
              rw [hc] at h
              dsimp only at h
              cases h2 : ser H cv opts fuel ((a, path) :: dict) st path with
              | error e => rw [h2] at h; cases h
              | ok r =>
                obtain ⟨i2, d2⟩ := r
                rw [h2] at h
                dsimp only at h
                cases h
                obtain ⟨Δ, hΔ⟩ := ih ((a, path) :: dict) st path i2 dict' h2
                exact ⟨Δ ++ [(a, path)], by simp [hΔ]⟩

/-- The only errors `ser` can surface: fuel exhaustion, a dangling
address, the `noRefs` throw (only when `noRefs` is on), or an
unregistered type. -/
theorem ser_error_shape (H : Heap) (cv : Config) (opts : Options) :
    ∀ (fuel : Nat) (dict : Dict) (v : JSVal) (path : Path) (e : Err),
      ser H cv opts fuel dict v path = .error e →
      e = .outOfFuel ∨ e = .dangling ∨ (e = .circular ∧ opts.noRefs = true) ∨
        ∃ n, e = .unregistered n := by
  intro fuel
  induction fuel with
  | zero =>
    intro dict v path e h
    simp only [ser] at h
    cases h
    exact Or.inl rfl
  | succ fuel ih =>
    have hseq : ∀ (vs : List JSVal) (dict : Dict) (path : Path) (i : Nat) (e : Err),
        serSeq (ser H cv opts fuel) dict vs path i = .error e →
        e = .outOfFuel ∨ e = .dangling ∨ (e = .circular ∧ opts.noRefs = true) ∨
          ∃ n, e = .unregistered n := by
      intro vs
      induction vs with
      | nil => intro dict path i e h; simp [serSeq] at h
      | cons v vs ihs =>
        intro dict path i e h
        simp only [serSeq] at h
        cases h1 : ser H cv opts fuel dict v (path ++ [toString i]) with
        | error e1 =>
          rw [h1] at h
          cases h
          exact ih dict v (path ++ [toString i]) e h1
        | ok r =>
          obtain ⟨i1, d1⟩ := r
          rw [h1] at h
          dsimp only at h
          cases h2 : serSeq (ser H cv opts fuel) d1 vs path (i + 1) with
          | error e2 =>
            rw [h2] at h
            cases h
            exact ihs d1 path (i + 1) e h2
          | ok r2 =>
            obtain ⟨ts2, d2⟩ := r2
            rw [h2] at h
            dsimp only at h
            cases h
    have hflds : ∀ (fs : List (String × JSVal)) (dict : Dict) (path : Path) (e : Err),
        serFields (ser H cv opts fuel) dict fs path = .error e →
        e = .outOfFuel ∨ e = .dangling ∨ (e = .circular ∧ opts.noRefs = true) ∨
          ∃ n, e = .unregistered n := by
      intro fs
      induction fs with
      | nil => intro dict path e h; simp [serFields] at h
      | cons kv fs ihs =>
        obtain ⟨k, v⟩ := kv
        intro dict path e h
        simp only [serFields] at h
        cases h1 : ser H cv opts fuel dict v (path ++ [k]) with
        | error e1 =>
          rw [h1] at h
          cases h
          exact ih dict v (path ++ [k]) e h1
        | ok r =>
          obtain ⟨i1, d1⟩ := r
          rw [h1] at h
          dsimp only at h
          cases h2 : serFields (ser H cv opts fuel) d1 fs path with
          | error e2 =>
            rw [h2] at h
            cases h
            exact ihs d1 path e h2
          | ok r2 =>
            obtain ⟨ts2, d2⟩ := r2
            rw [h2] at h
            dsimp only at h
            cases h
    intro dict v path e h
    match v with
    | .prim p => simp [ser] at h
    | .sym k de => simp [ser] at h
    | .fn name =>
      simp only [ser] at h
      cases h1 : ser H cv opts fuel dict (.prim (.vstr name)) path with
      | error e1 =>
        rw [h1] at h
        cases h
        exact ih dict (.prim (.vstr name)) path e h1
      | ok r =>
        obtain ⟨i1, d1⟩ := r
        rw [h1] at h
        dsimp only at h
        cases h
    | .addr a =>
      simp only [ser] at h
      cases hl : lookupD dict a with
      | some p =>
        rw [hl] at h
        dsimp only at h
        by_cases hnr : opts.noRefs
        · simp only [hnr, if_true] at h
          cases h
          exact Or.inr (Or.inr (Or.inl ⟨rfl, hnr⟩))
        · simp [hnr] at h
      | none =>
        rw [hl] at h
        dsimp only at h
        cases hg : H.get? a with
        | none =>
          rw [hg] at h
          cases h
          exact Or.inr (Or.inl rfl)
        | some o =>
          rw [hg] at h
          match o with
          | .harr elems =>
            dsimp only at h
            cases h2 : serSeq (ser H cv opts fuel) ((a, path) :: dict) elems path 0 with
            | error e2 =>
              rw [h2] at h
              cases h
              exact hseq elems ((a, path) :: dict) path 0 e h2
            | ok r =>
              obtain ⟨ts2, d2⟩ := r
              rw [h2] at h
              dsimp only at h
              cases h
          | .hobj fields =>
            dsimp only at h
            cases h2 : serFields (ser H cv opts fuel) ((a, path) :: dict) fields path with
            | error e2 =>
              rw [h2] at h
              cases h
              exact hflds fields ((a, path) :: dict) path e h2
            | ok r =>
              obtain ⟨ts2, d2⟩ := r
              rw [h2] at h
              dsimp only at h
              cases h
          | .htyped ctor st =>
            dsimp only at h
            cases hc : cv ctor with
            | none =>
              rw [hc] at h
              cases h
              exact Or.inr (Or.inr (Or.inr ⟨ctor, rfl⟩))
            | some c =>
              rw [hc] at h
              dsimp only at h
              cases h2 : ser H cv opts fuel ((a, path) :: dict) st path with
              | error e2 =>
                rw [h2] at h
                cases h
                exact ih ((a, path) :: dict) st path e h2
              | ok r =>
                obtain ⟨i2, d2⟩ := r
                rw [h2] at h
                dsimp only at h
                cases h

/-- Reachability lifts through one heap edge. -/
theorem VReach.lift {H : Heap} {b : Nat} {o : HeapObj} {c : JSVal} {a : Nat}
    (hg : H.get? b = some o) (hc : c ∈ childVals o)
    (h : VReach H c a) : VReach H (.addr b) a := by
  obtain ⟨π, hπ⟩ := h
  obtain ⟨i, hi⟩ := List.mem_iff_get?.mp hc
  exact ⟨i :: π, .step b o i c π a hg hi hπ⟩

/-- Growth across an element list (no hypotheses). -/
theorem serSeq_ok_grow (H : Heap) (cv : Config) (opts : Options) (fuel : Nat) :
    ∀ (vs : List JSVal) (dict : Dict) (path : Path) (i : Nat)
      (ts : List SerItem) (dict' : Dict),
      serSeq (ser H cv opts fuel) dict vs path i = .ok (ts, dict') →
      ∃ Δ, dict' = Δ ++ dict := by
  intro vs
  induction vs with
  | nil =>
    intro dict path i ts dict' h
    simp only [serSeq] at h
    cases h
    exact ⟨[], rfl⟩
  | cons v vs ihs =>
    intro dict path i ts dict' h
    simp only [serSeq] at h
    cases h1 : ser H cv opts fuel dict v (path ++ [toString i]) with
    | error e => rw [h1] at h; cases h
    | ok r =>
      obtain ⟨i1, d1⟩ := r
      rw [h1] at h
      dsimp only at h
      cases h2 : serSeq (ser H cv opts fuel) d1 vs path (i + 1) with
      | error e => rw [h2] at h; cases h
      | ok r2 =>
        obtain ⟨ts2, d2⟩ := r2
        rw [h2] at h
        dsimp only at h
        cases h
        obtain ⟨Δ1, rfl⟩ := ser_ok_grow H cv opts fuel dict v (path ++ [toString i]) i1 d1 h1
        obtain ⟨Δ2, rfl⟩ := ihs (Δ1 ++ dict) path (i + 1) ts2 dict' h2
        exact ⟨Δ2 ++ Δ1, by simp⟩

/-- Growth across a field list (no hypotheses). -/
theorem serFields_ok_grow (H : Heap) (cv : Config) (opts : Options) (fuel : Nat) :
    ∀ (fs : List (String × JSVal)) (dict : Dict) (path : Path)
      (ts : List (String × SerItem)) (dict' : Dict),
      serFields (ser H cv opts fuel) dict fs path = .ok (ts, dict') →
      ∃ Δ, dict' = Δ ++ dict := by
  intro fs
  induction fs with
  | nil =>
    intro dict path ts dict' h
    simp only [serFields] at h
    cases h
    exact ⟨[], rfl⟩
  | cons kv fs ihs =>
    obtain ⟨k, v⟩ := kv
    intro dict path ts dict' h
    simp only [serFields] at h
    cases h1 : ser H cv opts fuel dict v (path ++ [k]) with
    | error e => rw [h1] at h; cases h
    | ok r =>
      obtain ⟨i1, d1⟩ := r
      rw [h1] at h
      dsimp only at h
      cases h2 : serFields (ser H cv opts fuel) d1 fs path with
      | error e => rw [h2] at h; cases h
      | ok r2 =>
        obtain ⟨ts2, d2⟩ := r2
        rw [h2] at h
        dsimp only at h
        cases h
        obtain ⟨Δ1, rfl⟩ := ser_ok_grow H cv opts fuel dict v (path ++ [k]) i1 d1 h1
        obtain ⟨Δ2, rfl⟩ := ihs (Δ1 ++ dict) path ts2 dict' h2
        exact ⟨Δ2 ++ Δ1, by simp⟩

/-- Recorded identities survive growth. -/
theorem keysD_mono {d d' : Dict} (h : ∃ Δ, d' = Δ ++ d) {b : Nat}
    (hb : b ∈ keysD d) : b ∈ keysD d' := by
  obtain ⟨Δ, rfl⟩ := h
  simp only [keysD, List.map_append, List.mem_append]
  exact Or.inr hb

/-- What one successful `ser` call guarantees about the final identity
map: the root composite is recorded, and every *newly* recorded identity
is a real heap object whose composite children are all recorded and
whose converter, if it is a custom-typed instance, is registered. -/
theorem ser_ok_closed (H : Heap) (cv : Config) (opts : Options) :
    ∀ (fuel : Nat) (dict : Dict) (v : JSVal) (path : Path) (t : SerItem)
      (dict' : Dict),
      ser H cv opts fuel dict v path = .ok (t, dict') →
      (∀ a, v = .addr a → a ∈ keysD dict') ∧
      (∀ b, b ∈ keysD dict' → b ∈ keysD dict ∨
        ∃ o, H.get? b = some o ∧
          (∀ c ∈ childVals o, ∀ x, c = .addr x → x ∈ keysD dict') ∧
          (∀ cn st, o = .htyped cn st → cv cn ≠ none)) := by
  intro fuel
  induction fuel with
  | zero => intro dict v path t dict' h; cases h
  | succ fuel ih =>
    have hseq : ∀ (vs : List JSVal) (dict : Dict) (path : Path) (i : Nat)
        (ts : List SerItem) (dict' : Dict),
        serSeq (ser H cv opts fuel) dict vs path i = .ok (ts, dict') →
        (∀ c ∈ vs, ∀ x, c = .addr x → x ∈ keysD dict') ∧
        (∀ b, b ∈ keysD dict' → b ∈ keysD dict ∨
          ∃ o, H.get? b = some o ∧
            (∀ c ∈ childVals o, ∀ x, c = .addr x → x ∈ keysD dict') ∧
            (∀ cn st, o = .htyped cn st → cv cn ≠ none)) := by
      intro vs
      induction vs with
      | nil =>
        intro dict path i ts dict' h
        simp only [serSeq] at h
        cases h
        exact ⟨fun c hc => absurd hc (List.not_mem_nil c), fun b hb => Or.inl hb⟩
      | cons v vs ihs =>
        intro dict path i ts dict' h
        simp only [serSeq] at h
        cases h1 : ser H cv opts fuel dict v (path ++ [toString i]) with
        | error e => rw [h1] at h; cases h
        | ok r =>
          obtain ⟨i1, d1⟩ := r
          rw [h1] at h
          dsimp only at h
          cases h2 : serSeq (ser H cv opts fuel) d1 vs path (i + 1) with
          | error e => rw [h2] at h; cases h
          | ok r2 =>
            obtain ⟨ts2, d2⟩ := r2
            rw [h2] at h
            dsimp only at h
            cases h
            have hgrow2 := serSeq_ok_grow H cv opts fuel vs d1 path (i + 1) ts2 dict' h2
            obtain ⟨hR1, hR2⟩ := ih dict v (path ++ [toString i]) i1 d1 h1
            obtain ⟨hS1, hS2⟩ := ihs d1 path (i + 1) ts2 dict' h2
            constructor
            · intro c hc x hcx
              rcases List.mem_cons.mp hc with rfl | hc2
              · exact keysD_mono hgrow2 (hR1 x hcx)
              · exact hS1 c hc2 x hcx
            · intro b hb
              rcases hS2 b hb with hb1 | hcl
              · rcases hR2 b hb1 with hb0 | ⟨o, hgo, hch, hty⟩
                · exact Or.inl hb0
                · exact Or.inr ⟨o, hgo,
                    fun c hc x hcx => keysD_mono hgrow2 (hch c hc x hcx), hty⟩
              · exact Or.inr hcl
    have hflds : ∀ (fs : List (String × JSVal)) (dict : Dict) (path : Path)
        (ts : List (String × SerItem)) (dict' : Dict),
        serFields (ser H cv opts fuel) dict fs path = .ok (ts, dict') →
        (∀ kv ∈ fs, ∀ x, kv.2 = .addr x → x ∈ keysD dict') ∧
        (∀ b, b ∈ keysD dict' → b ∈ keysD dict ∨
          ∃ o, H.get? b = some o ∧
            (∀ c ∈ childVals o, ∀ x, c = .addr x → x ∈ keysD dict') ∧
            (∀ cn st, o = .htyped cn st → cv cn ≠ none)) := by
      intro fs
      induction fs with
      | nil =>
        intro dict path ts dict' h
        simp only [serFields] at h
        cases h
        exact ⟨fun kv hkv => absurd hkv (List.not_mem_nil kv), fun b hb => Or.inl hb⟩
      | cons kv fs ihs =>
        obtain ⟨k, v⟩ := kv
        intro dict path ts dict' h
        simp only [serFields] at h
        cases h1 : ser H cv opts fuel dict v (path ++ [k]) with
        | error e => rw [h1] at h; cases h
        | ok r =>
          obtain ⟨i1, d1⟩ := r
          rw [h1] at h
          dsimp only at h
          cases h2 : serFields (ser H cv opts fuel) d1 fs path with
          | error e => rw [h2] at h; cases h
          | ok r2 =>
            obtain ⟨ts2, d2⟩ := r2
            rw [h2] at h
            dsimp only at h
            cases h
            have hgrow2 := serFields_ok_grow H cv opts fuel fs d1 path ts2 dict' h2
            obtain ⟨hR1, hR2⟩ := ih dict v (path ++ [k]) i1 d1 h1
            obtain ⟨hS1, hS2⟩ := ihs d1 path ts2 dict' h2
            constructor
            · intro kv hkv x hcx
              rcases List.mem_cons.mp hkv with rfl | hkv2
              · exact keysD_mono hgrow2 (hR1 x hcx)
              · exact hS1 kv hkv2 x hcx
            · intro b hb
              rcases hS2 b hb with hb1 | hcl
              · rcases hR2 b hb1 with hb0 | ⟨o, hgo, hch, hty⟩
                · exact Or.inl hb0
                · exact Or.inr ⟨o, hgo,
                    fun c hc x hcx => keysD_mono hgrow2 (hch c hc x hcx), hty⟩
              · exact Or.inr hcl
    intro dict v path t dict' h
    match v with
    | .prim p =>
      simp only [ser] at h
      cases h
      exact ⟨fun a ha => (nomatch ha), fun b hb => Or.inl hb⟩
    | .sym k de =>
      simp only [ser] at h
      cases h
      exact ⟨fun a ha => (nomatch ha), fun b hb => Or.inl hb⟩
    | .fn name =>
      simp only [ser] at h
      cases h1 : ser H cv opts fuel dict (.prim (.vstr name)) path with
      | error e => rw [h1] at h; cases h
      | ok r =>
        obtain ⟨i1, d1⟩ := r
        rw [h1] at h
        dsimp only at h
        cases h
        obtain ⟨-, hR2⟩ := ih dict (.prim (.vstr name)) path i1 dict' h1
        exact ⟨fun a ha => (nomatch ha), hR2⟩
    | .addr a =>
      simp only [ser] at h
      cases hl : lookupD dict a with
      | some p =>
        rw [hl] at h
        dsimp only at h
        by_cases hnr : opts.noRefs
        · simp [hnr] at h
        · simp only [hnr, if_false] at h
          cases h
          refine ⟨fun x hx => ?_, fun b hb => Or.inl hb⟩
          cases hx
          exact lookupD_some_mem hl
      | none =>
        rw [hl] at h
        dsimp only at h
        cases hg : H.get? a with
        | none => rw [hg] at h; cases h
        | some o =>
          rw [hg] at h
          match o with
          | .harr elems =>
            dsimp only at h
            cases h2 : serSeq (ser H cv opts fuel) ((a, path) :: dict) elems path 0 with
            | error e => rw [h2] at h; cases h
            | ok r =>
              obtain ⟨ts2, d2⟩ := r
              rw [h2] at h
              dsimp only at h
              cases h
              have hgrow := serSeq_ok_grow H cv opts fuel elems
                ((a, path) :: dict) path 0 ts2 dict' h2
              obtain ⟨hS1, hS2⟩ := hseq elems ((a, path) :: dict) path 0 ts2 dict' h2
              have hain : a ∈ keysD dict' := keysD_mono hgrow (by simp [keysD])
              refine ⟨fun x hx => (by cases hx; exact hain), fun b hb => ?_⟩
              rcases hS2 b hb with hb1 | hcl
              · rcases List.mem_cons.mp hb1 with rfl | hb0
                · refine Or.inr ⟨.harr elems, hg, ?_, by intro cn st heq; cases heq⟩
                  intro c hc x hcx
                  exact hS1 c (by simpa [childVals] using hc) x hcx
                · exact Or.inl hb0
              · exact Or.inr hcl
          | .hobj fields =>
            dsimp only at h
            cases h2 : serFields (ser H cv opts fuel) ((a, path) :: dict) fields path with
            | error e => rw [h2] at h; cases h
            | ok r =>
              obtain ⟨ts2, d2⟩ := r
              rw [h2] at h
              dsimp only at h
              cases h
              have hgrow := serFields_ok_grow H cv opts fuel fields
                ((a, path) :: dict) path ts2 dict' h2
              obtain ⟨hS1, hS2⟩ := hflds fields ((a, path) :: dict) path ts2 dict' h2
              have hain : a ∈ keysD dict' := keysD_mono hgrow (by simp [keysD])
              refine ⟨fun x hx => (by cases hx; exact hain), fun b hb => ?_⟩
              rcases hS2 b hb with hb1 | hcl
              · rcases List.mem_cons.mp hb1 with rfl | hb0
                · refine Or.inr ⟨.hobj fields, hg, ?_, by intro cn st heq; cases heq⟩
                  intro c hc x hcx
                  have hc' : ∃ k2, (k2, c) ∈ fields := by simpa [childVals] using hc
                  obtain ⟨k2, hkv⟩ := hc'
                  exact hS1 (k2, c) hkv x hcx
                · exact Or.inl hb0
              · exact Or.inr hcl
          | .htyped ctor st =>
            dsimp only at h
            cases hc : cv ctor with
            | none => rw [hc] at h; cases h
            | some c =>
              rw [hc] at h
              dsimp only at h
              cases h2 : ser H cv opts fuel ((a, path) :: dict) st path with
              | error e => rw [h2] at h; cases h
              | ok r =>
                obtain ⟨i2, d2⟩ := r
                rw [h2] at h
                dsimp only at h
                cases h
                have hgrow := ser_ok_grow H cv opts fuel ((a, path) :: dict) st path
                  i2 dict' h2
                obtain ⟨hR1, hR2⟩ := ih ((a, path) :: dict) st path i2 dict' h2
                have hain : a ∈ keysD dict' := keysD_mono hgrow (by simp [keysD])
                refine ⟨fun x hx => (by cases hx; exact hain), fun b hb => ?_⟩
                rcases hR2 b hb with hb1 | hcl
                · rcases List.mem_cons.mp hb1 with rfl | hb0
                  · refine Or.inr ⟨.htyped ctor st, hg, ?_, ?_⟩
                    · intro c2 hc2 x hcx
                      have : c2 = st := by simpa [childVals] using hc2
                      subst this
                      exact hR1 x hcx
                    · intro cn st2 heq
                      cases heq
                      simp [hc]
                  · exact Or.inl hb0
                · exact Or.inr hcl

/-- An unregistered-type error always names a reachable custom-typed
instance whose constructor has no registered converter; plain objects and
arrays can never cause one. -/
theorem ser_unregistered_reach (H : Heap) (cv : Config) (opts : Options) :
    ∀ (fuel : Nat) (dict : Dict) (v : JSVal) (path : Path) (n : String),
      ser H cv opts fuel dict v path = .error (.unregistered n) →
      ∃ a st, VReach H v a ∧ H.get? a = some (.htyped n st) ∧ cv n = none := by
  intro fuel
  induction fuel with
  | zero => intro dict v path n h; simp [ser] at h
  | succ fuel ih =>
    have hseq : ∀ (vs : List JSVal) (dict : Dict) (path : Path) (i : Nat) (n : String),
        serSeq (ser H cv opts fuel) dict vs path i = .error (.unregistered n) →
        ∃ v ∈ vs, ∃ a st, VReach H v a ∧ H.get? a = some (.htyped n st) ∧
          cv n = none := by
      intro vs
      induction vs with
      | nil => intro dict path i n h; simp [serSeq] at h
      | cons v vs ihs =>
        intro dict path i n h
        simp only [serSeq] at h
        cases h1 : ser H cv opts fuel dict v (path ++ [toString i]) with
        | error e1 =>
          rw [h1] at h
          cases h
          obtain ⟨a, st, hr, hg, hc⟩ := ih dict v (path ++ [toString i]) n h1
          exact ⟨v, by simp, a, st, hr, hg, hc⟩
        | ok r =>
          obtain ⟨i1, d1⟩ := r
          rw [h1] at h
          dsimp only at h
          cases h2 : serSeq (ser H cv opts fuel) d1 vs path (i + 1) with
          | error e2 =>
            rw [h2] at h
            cases h
            obtain ⟨v2, hv2, a, st, hr, hg, hc⟩ := ihs d1 path (i + 1) n h2
            exact ⟨v2, by simp [hv2], a, st, hr, hg, hc⟩
          | ok r2 =>
            obtain ⟨ts2, d2⟩ := r2
            rw [h2] at h
            dsimp only at h
            cases h
    have hflds : ∀ (fs : List (String × JSVal)) (dict : Dict) (path : Path) (n : String),
        serFields (ser H cv opts fuel) dict fs path = .error (.unregistered n) →
        ∃ kv ∈ fs, ∃ a st, VReach H kv.2 a ∧ H.get? a = some (.htyped n st) ∧
          cv n = none := by
      intro fs
      induction fs with
      | nil => intro dict path n h; simp [serFields] at h
      | cons kv fs ihs =>
        obtain ⟨k, v⟩ := kv
        intro dict path n h
        simp only [serFields] at h
        cases h1 : ser H cv opts fuel dict v (path ++ [k]) with
        | error e1 =>
          rw [h1] at h
          cases h
          obtain ⟨a, st, hr, hg, hc⟩ := ih dict v (path ++ [k]) n h1
          exact ⟨(k, v), by simp, a, st, hr, hg, hc⟩
        | ok r =>
          obtain ⟨i1, d1⟩ := r
          rw [h1] at h
          dsimp only at h
          cases h2 : serFields (ser H cv opts fuel) d1 fs path with
          | error e2 =>
            rw [h2] at h
            cases h
            obtain ⟨kv2, hkv2, a, st, hr, hg, hc⟩ := ihs d1 path n h2
            exact ⟨kv2, by simp [hkv2], a, st, hr, hg, hc⟩
          | ok r2 =>
            obtain ⟨ts2, d2⟩ := r2
            rw [h2] at h
            dsimp only at h
            cases h
    intro dict v path n h
    match v with
    | .prim p => simp [ser] at h
    | .sym k de => simp [ser] at h
    | .fn name =>
      simp only [ser] at h
      cases h1 : ser H cv opts fuel dict (.prim (.vstr name)) path with
      | error e1 =>
        rw [h1] at h
        cases h
        match fuel, h1 with
        | 0, h1 => cases h1
        | fuel + 1, h1 => simp [ser] at h1
      | ok r =>
        obtain ⟨i1, d1⟩ := r
        rw [h1] at h
        dsimp only at h
        cases h
    | .addr a =>
      simp only [ser] at h
      cases hl : lookupD dict a with
      | some p =>
        rw [hl] at h
        dsimp only at h
        by_cases hnr : opts.noRefs
        · simp [hnr] at h
        · simp [hnr] at h
      | none =>
        rw [hl] at h
        dsimp only at h
        cases hg : H.get? a with
        | none => rw [hg] at h; cases h
        | some o =>
          rw [hg] at h
          match o with
          | .harr elems =>
            dsimp only at h
            cases h2 : serSeq (ser H cv opts fuel) ((a, path) :: dict) elems path 0 with
            | error e2 =>
              rw [h2] at h
              cases h
              obtain ⟨v2, hv2, a2, st, hr, hg2, hc⟩ :=
                hseq elems ((a, path) :: dict) path 0 n h2
              exact ⟨a2, st, VReach.lift hg (by simpa [childVals] using hv2) hr,
                hg2, hc⟩
            | ok r =>
              obtain ⟨ts2, d2⟩ := r
              rw [h2] at h
              dsimp only at h
              cases h
          | .hobj fields =>
            dsimp only at h
            cases h2 : serFields (ser H cv opts fuel) ((a, path) :: dict) fields path with
            | error e2 =>
              rw [h2] at h
              cases h
              obtain ⟨kv2, hkv2, a2, st, hr, hg2, hc⟩ :=
                hflds fields ((a, path) :: dict) path n h2
              refine ⟨a2, st, VReach.lift hg ?_ hr, hg2, hc⟩
              simp only [childVals]
              exact List.mem_map_of_mem Prod.snd hkv2
            | ok r =>
              obtain ⟨ts2, d2⟩ := r
              rw [h2] at h
              dsimp only at h
              cases h
          | .htyped ctor st =>
            dsimp only at h
            cases hc : cv ctor with
            | none =>
              rw [hc] at h
              cases h
              exact ⟨a, st, ⟨[], .here a⟩, hg, hc⟩
            | some c =>
              rw [hc] at h
              dsimp only at h
              cases h2 : ser H cv opts fuel ((a, path) :: dict) st path with
              | error e2 =>
                rw [h2] at h
                cases h
                obtain ⟨a2, st2, hr, hg2, hc2⟩ :=
                  ih ((a, path) :: dict) st path n h2
                exact ⟨a2, st2, VReach.lift hg (by simp [childVals]) hr, hg2, hc2⟩
              | ok r =>
                obtain ⟨i2, d2⟩ := r
                rw [h2] at h
                dsimp only at h
                cases h

/-- Termination of the normalizer: with fuel at least
`2 * (door-to-process heap cells) + 2`, `ser` never runs out of fuel, and
on a well-formed heap it never meets a dangling address.  Every recursive
call either stays within a constant depth (function/typed wrappers) or
first records a fresh composite identity, shrinking the number of
unrecorded heap cells — the claim's "each distinct composite identity is
walked in full at most once". -/
theorem ser_no_fuel_error (H : Heap) (cv : Config) (opts : Options)
    (hwf : WFHeap H) :
    ∀ (fuel : Nat) (dict : Dict) (v : JSVal) (path : Path),
      ValBound H v → DictOk H dict →
      2 * (H.length - dict.length) + 2 ≤ fuel →
      ∀ e, ser H cv opts fuel dict v path = .error e →
        e ≠ .outOfFuel ∧ e ≠ .dangling := by
  intro fuel
  induction fuel with
  | zero => intro dict v path _ _ hb; omega
  | succ fuel ih =>
    have hseqE : ∀ (vs : List JSVal) (dict : Dict) (path : Path) (i : Nat),
        (∀ v ∈ vs, ValBound H v) → DictOk H dict →
        2 * (H.length - dict.length) + 2 ≤ fuel →
        ∀ e, serSeq (ser H cv opts fuel) dict vs path i = .error e →
          e ≠ .outOfFuel ∧ e ≠ .dangling := by
      intro vs
      induction vs with
      | nil => intro dict path i _ _ _ e h; simp [serSeq] at h
      | cons v vs ihs =>
        intro dict path i hvb hd hb e h
        simp only [serSeq] at h
        cases h1 : ser H cv opts fuel dict v (path ++ [toString i]) with
        | error e1 =>
          rw [h1] at h
          cases h
          exact ih dict v (path ++ [toString i]) (hvb v (by simp)) hd hb e h1
        | ok r =>
          obtain ⟨i1, d1⟩ := r
          rw [h1] at h
          dsimp only at h
          obtain ⟨⟨Δ1, rfl⟩, hd1⟩ := ser_ok_preserve H cv opts hwf fuel dict v
            (path ++ [toString i]) i1 d1 h1 (hvb v (by simp)) hd
          cases h2 : serSeq (ser H cv opts fuel) (Δ1 ++ dict) vs path (i + 1) with
          | error e2 =>
            rw [h2] at h
            cases h
            refine ihs (Δ1 ++ dict) path (i + 1)
              (fun v hv => hvb v (by simp [hv])) hd1 ?_ e h2
            have : dict.length ≤ (Δ1 ++ dict).length := by simp
            omega
          | ok r2 =>
            obtain ⟨ts2, d2⟩ := r2
            rw [h2] at h
            dsimp only at h
            cases h
    have hfldsE : ∀ (fs : List (String × JSVal)) (dict : Dict) (path : Path),
        (∀ kv ∈ fs, ValBound H kv.2) → DictOk H dict →
        2 * (H.length - dict.length) + 2 ≤ fuel →
        ∀ e, serFields (ser H cv opts fuel) dict fs path = .error e →
          e ≠ .outOfFuel ∧ e ≠ .dangling := by
      intro fs
      induction fs with
      | nil => intro dict path _ _ _ e h; simp [serFields] at h
      | cons kv fs ihs =>
        obtain ⟨k, v⟩ := kv
        intro dict path hvb hd hb e h
        simp only [serFields] at h
        cases h1 : ser H cv opts fuel dict v (path ++ [k]) with
        | error e1 =>
          rw [h1] at h
          cases h
          exact ih dict v (path ++ [k]) (hvb (k, v) (by simp)) hd hb e h1
        | ok r =>
          obtain ⟨i1, d1⟩ := r
          rw [h1] at h
          dsimp only at h
          obtain ⟨⟨Δ1, rfl⟩, hd1⟩ := ser_ok_preserve H cv opts hwf fuel dict v
            (path ++ [k]) i1 d1 h1 (hvb (k, v) (by simp)) hd
          cases h2 : serFields (ser H cv opts fuel) (Δ1 ++ dict) fs path with
          | error e2 =>
            rw [h2] at h
            cases h
            refine ihs (Δ1 ++ dict) path
              (fun kv hkv => hvb kv (by simp [hkv])) hd1 ?_ e h2
            have : dict.length ≤ (Δ1 ++ dict).length := by simp
            omega
          | ok r2 =>
            obtain ⟨ts2, d2⟩ := r2
            rw [h2] at h
            dsimp only at h
            cases h
    intro dict v path hvb hd hb e h
    match v with
    | .prim p => simp [ser] at h
    | .sym k de => simp [ser] at h
    | .fn name =>
      simp only [ser] at h
      match fuel, hb with
      | fuel + 1, _ =>
        simp only [ser] at h
        cases h
    | .addr a =>
      simp only [ser] at h
      cases hl : lookupD dict a with
      | some p =>
        rw [hl] at h
        dsimp only at h
        by_cases hnr : opts.noRefs
        · simp only [hnr, if_true] at h
          cases h
          exact ⟨by simp, by simp⟩
        · simp [hnr] at h
      | none =>
        rw [hl] at h
        dsimp only at h
        have ha : a < H.length := hvb
        obtain ⟨hd1, hlen⟩ := DictOk.insert (p := path) hd ha hl
        have hb1 : 2 * (H.length - ((a, path) :: dict).length) + 2 ≤ fuel := by
          simp only [List.length_cons]
          omega
        cases hg : H.get? a with
        | none =>
          exfalso
          have := List.get?_eq_get (l := H) ha
          rw [hg] at this
          cases this
        | some o =>
          rw [hg] at h
          have hcb := childVals_bound hwf hg
          match o with
          | .harr elems =>
            dsimp only at h
            cases h2 : serSeq (ser H cv opts fuel) ((a, path) :: dict) elems path 0 with
            | error e2 =>
              rw [h2] at h
              cases h
              exact hseqE elems ((a, path) :: dict) path 0
                (fun c hc => hcb c (by simpa [childVals] using hc)) hd1 hb1 e h2
            | ok r =>
              obtain ⟨ts2, d2⟩ := r
              rw [h2] at h
              dsimp only at h
              cases h
          | .hobj fields =>
            dsimp only at h
            cases h2 : serFields (ser H cv opts fuel) ((a, path) :: dict) fields path with
            | error e2 =>
              rw [h2] at h
              cases h
              exact hfldsE fields ((a, path) :: dict) path
                (fun kv hkv => hcb kv.2 (by
                  simp only [childVals]
                  exact List.mem_map_of_mem Prod.snd hkv)) hd1 hb1 e h2
            | ok r =>
              obtain ⟨ts2, d2⟩ := r
              rw [h2] at h
              dsimp only at h
              cases h
          | .htyped ctor st =>
            dsimp only at h
            cases hc : cv ctor with
            | none =>
              rw [hc] at h
              cases h
              exact ⟨by simp, by simp⟩
            | some c =>
              rw [hc] at h
              dsimp only at h
              cases h2 : ser H cv opts fuel ((a, path) :: dict) st path with
              | error e2 =>
                rw [h2] at h
                cases h
                exact ih ((a, path) :: dict) st path
                  (hcb st (by simp [childVals])) hd1 hb1 e h2
              | ok r =>
                obtain ⟨i2, d2⟩ := r
                rw [h2] at h
                dsimp only at h
                cases h

/-! ## Sorting lemmas and claim C8 -/

/-- Membership in an insertion step. -/
theorem mem_insertAct {x a : Action} {l : List Action} :
    x ∈ insertAct l a ↔ x = a ∨ x ∈ l := by
  induction l with
  | nil => simp [insertAct]
  | cons b l ih =>
    by_cases h : Action.depth b < Action.depth a <;>
      simp [insertAct, h, ih] <;> tauto

/-- An insertion step is a permutation with consing. -/
theorem insertAct_perm (l : List Action) (a : Action) :
    (insertAct l a).Perm (a :: l) := by
  induction l with
  | nil => simp [insertAct]
  | cons b l ih =>
    by_cases h : Action.depth b < Action.depth a
    · simp [insertAct, h]
    · simp only [insertAct, h, if_false]
      exact ((ih.cons b).trans (List.Perm.swap a b l))

/-- Inserting into a descending-depth list keeps it descending. -/
theorem insertAct_pairwise {l : List Action} (a : Action)
    (h : l.Pairwise (fun x y => Action.depth y ≤ Action.depth x)) :
    (insertAct l a).Pairwise (fun x y => Action.depth y ≤ Action.depth x) := by
  induction l with
  | nil => simp [insertAct]
  | cons b l ih =>
    rcases List.pairwise_cons.mp h with ⟨hb, hl⟩
    by_cases hd : Action.depth b < Action.depth a
    · simp only [insertAct, hd, if_true]
      refine List.pairwise_cons.mpr ⟨?_, h⟩
      intro x hx
      rcases List.mem_cons.mp hx with rfl | hx
      · exact Nat.le_of_lt hd
      · exact le_trans (hb x hx) (Nat.le_of_lt hd)
    · simp only [insertAct, hd, if_false]
      refine List.pairwise_cons.mpr ⟨?_, ih hl⟩
      intro x hx
      rcases mem_insertAct.mp hx with rfl | hx
      · exact Nat.le_of_not_lt hd
      · exact hb x hx

/-- Inserting into a descending list puts the new action after every
already-placed action of its own depth: filtering at any fixed depth, the
new action lands at the end of its depth class and every other class is
untouched. -/
theorem insertAct_filter_depth {l : List Action} (a : Action) (n : Nat)
    (h : l.Pairwise (fun x y => Action.depth y ≤ Action.depth x)) :
    (insertAct l a).filter (fun x => Action.depth x = n) =
      if Action.depth a = n then
        l.filter (fun x => Action.depth x = n) ++ [a]
      else l.filter (fun x => Action.depth x = n) := by
  induction l with
  | nil => by_cases hn : Action.depth a = n <;> simp [insertAct, hn]
  | cons b l ih =>
    rcases List.pairwise_cons.mp h with ⟨hb, hl⟩
    by_cases hd : Action.depth b < Action.depth a
    · -- `a` goes in front of `b`; nothing at depth `Action.depth a`
      -- can occur in `b :: l`, whose depths are all `≤ depth b < depth a`.
      simp only [insertAct, hd, if_true]
      by_cases hn : Action.depth a = n
      · have hnone : (b :: l).filter (fun x => decide (Action.depth x = n)) = [] := by
          apply List.filter_eq_nil.mpr
          intro x hx
          have hxle : Action.depth x ≤ Action.depth b := by
            rcases List.mem_cons.mp hx with rfl | hx
            · exact le_refl _
            · exact hb x hx
          simp only [decide_eq_true_eq]
          omega
        simp only [hn, if_true, hnone, List.nil_append]
        simp [List.filter_cons, hn, hnone]
      · simp [List.filter_cons, hn]
    · simp only [insertAct, hd, if_false, List.filter_cons, ih hl]
      by_cases hn : Action.depth a = n <;>
        by_cases hbn : Action.depth b = n <;>
        simp [hn, hbn]

/-- The stable sort leaves the action list sorted by descending depth. -/
theorem sortActions_pairwise (l : List Action) :
    (sortActions l).Pairwise (fun x y => Action.depth y ≤ Action.depth x) := by
  suffices h : ∀ acc : List Action,
      acc.Pairwise (fun x y => Action.depth y ≤ Action.depth x) →
      (l.foldl insertAct acc).Pairwise (fun x y => Action.depth y ≤ Action.depth x) by
    exact h [] (by simp)
  induction l with
  | nil => intro acc h; exact h
  | cons a l ih => intro acc h; exact ih _ (insertAct_pairwise a h)

/-- The stable sort is a permutation: the applied fixups are exactly the
recorded ones. -/
theorem sortActions_perm (l : List Action) : (sortActions l).Perm l := by
  suffices h : ∀ acc : List Action, (l.foldl insertAct acc).Perm (acc ++ l) by
    simpa using h []
  induction l with
  | nil => intro acc; simp
  | cons a l ih =>
    intro acc
    refine (ih (insertAct acc a)).trans ?_
    refine (List.Perm.append_right l (insertAct_perm acc a)).trans ?_
    exact List.perm_middle.symm.trans (by simp)

/-- Stability: at each fixed depth, the sorted list keeps the actions in
push order (this is what ES2019's stable `Array.sort` guarantees, and
what `sortActions` computes). -/
theorem sortActions_filter_depth (l : List Action) (n : Nat) :
    (sortActions l).filter (fun x => Action.depth x = n) =
      l.filter (fun x => Action.depth x = n) := by
  suffices h : ∀ acc : List Action,
      acc.Pairwise (fun x y => Action.depth y ≤ Action.depth x) →
      (l.foldl insertAct acc).filter (fun x => Action.depth x = n) =
        acc.filter (fun x => Action.depth x = n) ++
          l.filter (fun x => Action.depth x = n) by
    simpa using h [] (by simp)
  induction l with
  | nil => intro acc _; simp
  | cons a l ih =>
    intro acc hacc
    rw [List.foldl_cons, ih _ (insertAct_pairwise a hacc),
      insertAct_filter_depth a n hacc]
    by_cases hn : Action.depth a = n <;> simp [hn, List.filter_cons]

/-! ## Claim C8 -/

/-- C8: the depth of a reference fixup is the length of its source path
and the depth of a conversion fixup the length of its path; the list
`denormalize` applies is `sortActions` of the recorded actions — a
permutation of them sorted by descending depth, stable at each depth —
and under that order any conversion fixup at path `p` precedes every
strictly shallower action, in particular every fixup at an ancestor
(strict prefix) path, so a nested typed instance is reified before any
ancestor fixup embeds or copies it. -/
theorem c8_descending_depth_fixups :
    (∀ target source, Action.depth (.ref target source) = source.length) ∧
    (∀ name p, Action.depth (.conv name p) = p.length) ∧
    (∀ l : List Action,
      (sortActions l).Pairwise (fun x y => Action.depth y ≤ Action.depth x)) ∧
    (∀ l : List Action, (sortActions l).Perm l) ∧
    (∀ (l : List Action) (n : Nat),
      (sortActions l).filter (fun x => Action.depth x = n) =
        l.filter (fun x => Action.depth x = n)) ∧
    (∀ (l : List Action) (i j : Nat) (c : String) (p : Path) (b : Action),
      (sortActions l).get? i = some (.conv c p) →
      (sortActions l).get? j = some b →
      Action.depth b < p.length → i < j) ∧
    (∀ (d : Deserted) (input : SerItem) (v : JSVal) (H : Heap) (acts : List Action),
      des d.converters d.options (itemSize input + 1) [] [] input [] =
        .ok (v, H, acts) →
      d.denormalize input = applyActions d.converters (sortActions acts) v H) := by
  refine ⟨fun _ _ => rfl, fun _ _ => rfl, sortActions_pairwise, sortActions_perm,
    sortActions_filter_depth, ?_, ?_⟩
  · intro l i j c p b hi hj hb
    by_contra hij
    have hji : j ≤ i := Nat.le_of_not_lt hij
    have hiLt : i < (sortActions l).length := (List.get?_eq_some.mp hi).1
    have hjLt : j < (sortActions l).length := (List.get?_eq_some.mp hj).1
    rcases Nat.eq_or_lt_of_le hji with rfl | hji
    · rw [hi] at hj
      have : b = .conv c p := by
        have h := hj
        injection h with h'
        exact h'.symm
      subst this
      exact absurd hb (by simp [Action.depth])
    · have hpw := (List.pairwise_iff_get.mp (sortActions_pairwise l))
        ⟨j, hjLt⟩ ⟨i, hiLt⟩ hji
      have hgi : (sortActions l).get ⟨i, hiLt⟩ = .conv c p := by
        have := List.get?_eq_get hiLt
        rw [hi] at this; injection this.symm
      have hgj : (sortActions l).get ⟨j, hjLt⟩ = b := by
        have := List.get?_eq_get hjLt
        rw [hj] at this; injection this.symm
      rw [hgi, hgj] at hpw
      have : Action.depth (Action.conv c p) = p.length := rfl
      omega
  · intro d input v H acts h
    show Deserted.denormalize d input = _
    unfold Deserted.denormalize
    rw [h]

/-- C8 witness: a conversion fixup at depth 1 pushed before a root-depth
reference fixup — the sort puts the conversion first, the reference
(strictly shallower) after, and `denormalize` applies the sorted list. -/
theorem c8_witness :
    ((0 : Nat) < 1) ∧
    Deserted.default.denormalize (.val .vnull) =
      applyActions Deserted.default.converters (sortActions []) (.prim .vnull) [] := by
  constructor
  · exact c8_descending_depth_fixups.2.2.2.2.2.1
      [.ref [] [], .conv "M" ["a"]] 0 1 "M" ["a"] (.ref [] []) rfl rfl
      (by simp [Action.depth])
  · exact c8_descending_depth_fixups.2.2.2.2.2.2 Deserted.default
      (.val .vnull) (.prim .vnull) [] [] rfl

/-! ## Claim C3 -/

/-- C3: normalize terminates on every finite input graph, cyclic ones
included.  First conjunct: on a well-formed heap the fuel the entry point
supplies is never exhausted — each composite is recorded in the identity
map before its children are visited, so the recursion is bounded by the
number of unrecorded heap cells (`ser_no_fuel_error`).  Second conjunct: a
later encounter of a recorded identity returns a `Reference` to its
canonical path at once, without recursing and without touching the map.
Third conjunct: for `o` with `o.self = o`, `clone(o)` terminates and the
clone's `self` slot holds the clone itself (the same address). -/
theorem c3_normalize_terminates :
    (∀ (d : Deserted) (H : Heap) (v : JSVal), WFHeap H → ValBound H v →
      d.normalize H v ≠ .error .outOfFuel) ∧
    (∀ (H : Heap) (cv : Config) (opts : Options) (fuel : Nat) (dict : Dict)
      (a : Nat) (p : Path) (path : Path),
      lookupD dict a = some p → opts.noRefs = false →
      ser H cv opts (fuel + 1) dict (.addr a) path = .ok (.ref p, dict)) ∧
    (Deserted.default.clone [.hobj [("self", .addr 0)]] (.addr 0) =
      .ok (.addr 0, [.hobj [("self", .addr 0)]]) ∧
      find [.hobj [("self", .addr 0)]] (.addr 0) ["self"] = .ok (.addr 0)) := by
  refine ⟨?_, ?_, rfl, rfl⟩
  · intro d H v hwf hvb hcon
    unfold Deserted.normalize at hcon
    cases hs : ser H d.converters d.options (serFuel H) [] v [] with
    | error e =>
      rw [hs] at hcon
      dsimp only at hcon
      cases hcon
      have := ser_no_fuel_error H d.converters d.options hwf (serFuel H) [] v []
        hvb ⟨List.nodup_nil, by intro k hk; cases hk⟩
        (by unfold serFuel; omega) _ hs
      exact this.1 rfl
    | ok r =>
      rw [hs] at hcon
      dsimp only at hcon
      cases hcon
  · intro H cv opts fuel dict a p path hl hnr
    simp [ser, hl, hnr]

/-- C3 witness: the self-cycle `o.self = o` — normalize does not run out
of fuel on it, a second encounter of a recorded identity is a constant
`Reference`, and the clone is itself cyclic. -/
theorem c3_witness :
    (Deserted.default.normalize [.hobj [("self", .addr 0)]] (.addr 0) ≠
      .error .outOfFuel) ∧
    ser [.hobj [("self", .addr 0)]] Deserted.default.converters
      Deserted.default.options 1 [(0, [])] (.addr 0) ["self"] =
      .ok (.ref [], [(0, [])]) := by
  constructor
  · exact c3_normalize_terminates.1 Deserted.default [.hobj [("self", .addr 0)]]
      (.addr 0) (by decide) (by decide)
  · exact c3_normalize_terminates.2.1 [.hobj [("self", .addr 0)]]
      Deserted.default.converters Deserted.default.options 0 [(0, [])] 0 [] ["self"]
      rfl rfl

/-- From an empty identity map, success records every reachable address,
and every reachable custom-typed instance has a registered converter. -/
theorem ser_root_ok_reach (H : Heap) (cv : Config) (opts : Options)
    (fuel : Nat) (v : JSVal) (t : SerItem) (dict' : Dict)
    (h : ser H cv opts fuel [] v [] = .ok (t, dict')) :
    ∀ a, VReach H v a → a ∈ keysD dict' ∧
      (∀ cn st, H.get? a = some (.htyped cn st) → cv cn ≠ none) := by
  obtain ⟨hR1, hR2⟩ := ser_ok_closed H cv opts fuel [] v [] t dict' h
  have hcl : ∀ b ∈ keysD dict',
      ∃ o, H.get? b = some o ∧
        (∀ c ∈ childVals o, ∀ x, c = .addr x → x ∈ keysD dict') ∧
        (∀ cn st, o = .htyped cn st → cv cn ≠ none) := by
    intro b hb
    rcases hR2 b hb with hb0 | hcl
    · cases hb0
    · exact hcl
  have key : ∀ (π : List Nat) (w : JSVal) (a : Nat), AccPath H w π a →
      (∀ x, w = .addr x → x ∈ keysD dict') →
      a ∈ keysD dict' ∧
        (∀ cn st, H.get? a = some (.htyped cn st) → cv cn ≠ none) := by
    intro π
    induction π with
    | nil =>
      intro w a hπ hw
      cases hπ
      have ha := hw a rfl
      refine ⟨ha, fun cn st hg => ?_⟩
      obtain ⟨o, hgo, -, hty⟩ := hcl a ha
      rw [hg] at hgo
      cases hgo
      exact hty cn st rfl
    | cons i π ihπ =>
      intro w a hπ hw
      cases hπ with
      | step b o i c π a hg hig hπ' =>
        have hb := hw b rfl
        obtain ⟨o2, hgo2, hch, -⟩ := hcl b hb
        rw [hg] at hgo2
        cases hgo2
        exact ihπ c a hπ' (hch c (List.get?_mem hig))
  intro a ⟨π, hπ⟩
  exact key π v a hπ hR1

/-- `normalize` success in terms of `ser`. -/
theorem normalize_ok_ser {d : Deserted} {H : Heap} {v : JSVal} {t : SerItem}
    (h : d.normalize H v = .ok t) :
    ∃ dict', ser H d.converters d.options (serFuel H) [] v [] = .ok (t, dict') := by
  unfold Deserted.normalize at h
  cases hs : ser H d.converters d.options (serFuel H) [] v [] with
  | error e => rw [hs] at h; cases h
  | ok r =>
    obtain ⟨t2, dict'⟩ := r
    rw [hs] at h
    dsimp only at h
    cases h
    exact ⟨dict', rfl⟩

/-- `normalize` failure in terms of `ser`. -/
theorem normalize_error_ser {d : Deserted} {H : Heap} {v : JSVal} {e : Err}
    (h : d.normalize H v = .error e) :
    ser H d.converters d.options (serFuel H) [] v [] = .error e := by
  unfold Deserted.normalize at h
  cases hs : ser H d.converters d.options (serFuel H) [] v [] with
  | error e2 =>
    rw [hs] at h
    dsimp only at h
    cases h
    exact rfl
  | ok r =>
    obtain ⟨t2, dict'⟩ := r
    rw [hs] at h
    cases h

/-- The empty identity map is well-formed. -/
theorem dictOk_nil (H : Heap) : DictOk H ([] : Dict) :=
  ⟨List.nodup_nil, fun k hk => absurd hk (List.not_mem_nil k)⟩

/-- With `noRefs` on, a successful `ser` walk certifies that the value it
walked is a tree: every reachable address is freshly recorded (it was not
in the map before and is after), and no address is reachable along two
distinct access paths.  The dictionary hit that would witness sharing
throws instead of succeeding. -/
theorem ser_noRefs_unique (H : Heap) (cv : Config) (opts : Options)
    (hnr : opts.noRefs = true) :
    ∀ (fuel : Nat) (dict : Dict) (v : JSVal) (path : Path) (t : SerItem)
      (dict' : Dict),
      ser H cv opts fuel dict v path = .ok (t, dict') →
      (∀ a, VReach H v a → a ∈ keysD dict' ∧ a ∉ keysD dict) ∧
      (∀ a π₁ π₂, AccPath H v π₁ a → AccPath H v π₂ a → π₁ = π₂) := by
  intro fuel
  induction fuel with
  | zero => intro dict v path t dict' h; cases h
  | succ fuel ih =>
    have hseqU : ∀ (vs : List JSVal) (dict : Dict) (path : Path) (i0 : Nat)
        (ts : List SerItem) (dict' : Dict),
        serSeq (ser H cv opts fuel) dict vs path i0 = .ok (ts, dict') →
        (∀ j c, vs.get? j = some c →
          ∀ a, VReach H c a → a ∈ keysD dict' ∧ a ∉ keysD dict) ∧
        (∀ i j ci cj a πi πj, vs.get? i = some ci → vs.get? j = some cj →
          AccPath H ci πi a → AccPath H cj πj a → i = j ∧ πi = πj) := by
      intro vs
      induction vs with
      | nil =>
        intro dict path i0 ts dict' h
        refine ⟨fun j c hc => ?_, fun i j ci cj a πi πj hci => ?_⟩
        · simp at hc
        · simp at hci
      | cons v vs ihs =>
        intro dict path i0 ts dict' h
        simp only [serSeq] at h
        cases h1 : ser H cv opts fuel dict v (path ++ [toString i0]) with
        | error e => rw [h1] at h; cases h
        | ok r =>
          obtain ⟨i1, d1⟩ := r
          rw [h1] at h
          dsimp only at h
          cases h2 : serSeq (ser H cv opts fuel) d1 vs path (i0 + 1) with
          | error e => rw [h2] at h; cases h
          | ok r2 =>
            obtain ⟨ts2, d2⟩ := r2
            rw [h2] at h
            dsimp only at h
            cases h
            obtain ⟨hM1, hU1⟩ := ih dict v (path ++ [toString i0]) i1 d1 h1
            obtain ⟨hA2, hB2⟩ := ihs d1 path (i0 + 1) ts2 dict' h2
            have hgrow1 : ∃ Δ, d1 = Δ ++ dict :=
              ser_ok_grow H cv opts fuel dict v (path ++ [toString i0]) i1 d1 h1
            have hgrow2 : ∃ Δ, dict' = Δ ++ d1 :=
              serSeq_ok_grow H cv opts fuel vs d1 path (i0 + 1) ts2 dict' h2
            constructor
            · intro j c hc a hr
              cases j with
              | zero =>
                have hcv2 : c = v := (by simpa using hc : v = c).symm
                subst hcv2
                exact ⟨keysD_mono hgrow2 (hM1 a hr).1, (hM1 a hr).2⟩
              | succ j =>
                have hc2 : vs.get? j = some c := by simpa using hc
                have := hA2 j c hc2 a hr
                exact ⟨this.1, fun hmem => this.2 (keysD_mono hgrow1 hmem)⟩
            · intro i j ci cj a πi πj hci hcj hπi hπj
              cases i with
              | zero =>
                have hciv : ci = v := (by simpa using hci : v = ci).symm
                subst hciv
                cases j with
                | zero =>
                  have hcjv : cj = ci := (by simpa using hcj : ci = cj).symm
                  subst hcjv
                  exact ⟨rfl, hU1 a πi πj hπi hπj⟩
                | succ j =>
                  exfalso
                  have hcj2 : vs.get? j = some cj := by simpa using hcj
                  have hin : a ∈ keysD d1 := (hM1 a ⟨πi, hπi⟩).1
                  exact (hA2 j cj hcj2 a ⟨πj, hπj⟩).2 hin
              | succ i =>
                have hci2 : vs.get? i = some ci := by simpa using hci
                cases j with
                | zero =>
                  exfalso
                  have hcjv : cj = v := (by simpa using hcj : v = cj).symm
                  subst hcjv
                  have hin : a ∈ keysD d1 := (hM1 a ⟨πj, hπj⟩).1
                  exact (hA2 i ci hci2 a ⟨πi, hπi⟩).2 hin
                | succ j =>
                  have hcj2 : vs.get? j = some cj := by simpa using hcj
                  obtain ⟨hij, hππ⟩ := hB2 i j ci cj a πi πj hci2 hcj2 hπi hπj
                  exact ⟨by omega, hππ⟩
    have hfldsU : ∀ (fs : List (String × JSVal)) (dict : Dict) (path : Path)
        (ts : List (String × SerItem)) (dict' : Dict),
        serFields (ser H cv opts fuel) dict fs path = .ok (ts, dict') →
        (∀ j kv, fs.get? j = some kv →
          ∀ a, VReach H kv.2 a → a ∈ keysD dict' ∧ a ∉ keysD dict) ∧
        (∀ i j kvi kvj a πi πj, fs.get? i = some kvi → fs.get? j = some kvj →
          AccPath H kvi.2 πi a → AccPath H kvj.2 πj a → i = j ∧ πi = πj) := by
      intro fs
      induction fs with
      | nil =>
        intro dict path ts dict' h
        refine ⟨fun j kv hkv => ?_, fun i j kvi kvj a πi πj hkvi => ?_⟩
        · simp at hkv
        · simp at hkvi
      | cons kv0 fs ihs =>
        obtain ⟨k, v⟩ := kv0
        intro dict path ts dict' h
        simp only [serFields] at h
        cases h1 : ser H cv opts fuel dict v (path ++ [k]) with
        | error e => rw [h1] at h; cases h
        | ok r =>
          obtain ⟨i1, d1⟩ := r
          rw [h1] at h
          dsimp only at h
          cases h2 : serFields (ser H cv opts fuel) d1 fs path with
          | error e => rw [h2] at h; cases h
          | ok r2 =>
            obtain ⟨ts2, d2⟩ := r2
            rw [h2] at h
            dsimp only at h
            cases h
            obtain ⟨hM1, hU1⟩ := ih dict v (path ++ [k]) i1 d1 h1
            obtain ⟨hA2, hB2⟩ := ihs d1 path ts2 dict' h2
            have hgrow1 : ∃ Δ, d1 = Δ ++ dict :=
              ser_ok_grow H cv opts fuel dict v (path ++ [k]) i1 d1 h1
            have hgrow2 : ∃ Δ, dict' = Δ ++ d1 :=
              serFields_ok_grow H cv opts fuel fs d1 path ts2 dict' h2
            constructor
            · intro j kv hkv a hr
              cases j with
              | zero =>
                have hkv2 : kv = (k, v) := (by simpa using hkv : (k, v) = kv).symm
                subst hkv2
                exact ⟨keysD_mono hgrow2 (hM1 a hr).1, (hM1 a hr).2⟩
              | succ j =>
                have hkv2 : fs.get? j = some kv := by simpa using hkv
                have := hA2 j kv hkv2 a hr
                exact ⟨this.1, fun hmem => this.2 (keysD_mono hgrow1 hmem)⟩
            · intro i j kvi kvj a πi πj hkvi hkvj hπi hπj
              cases i with
              | zero =>
                have hkvi2 : kvi = (k, v) := (by simpa using hkvi : (k, v) = kvi).symm
                subst hkvi2
                cases j with
                | zero =>
                  have hkvj2 : kvj = (k, v) := (by simpa using hkvj : (k, v) = kvj).symm
                  subst hkvj2
                  exact ⟨rfl, hU1 a πi πj hπi hπj⟩
                | succ j =>
                  exfalso
                  have hkvj2 : fs.get? j = some kvj := by simpa using hkvj
                  have hin : a ∈ keysD d1 := (hM1 a ⟨πi, hπi⟩).1
                  exact (hA2 j kvj hkvj2 a ⟨πj, hπj⟩).2 hin
              | succ i =>
                have hkvi2 : fs.get? i = some kvi := by simpa using hkvi
                cases j with
                | zero =>
                  exfalso
                  have hkvj2 : kvj = (k, v) := (by simpa using hkvj : (k, v) = kvj).symm
                  subst hkvj2
                  have hin : a ∈ keysD d1 := (hM1 a ⟨πj, hπj⟩).1
                  exact (hA2 i kvi hkvi2 a ⟨πi, hπi⟩).2 hin
                | succ j =>
                  have hkvj2 : fs.get? j = some kvj := by simpa using hkvj
                  obtain ⟨hij, hππ⟩ := hB2 i j kvi kvj a πi πj hkvi2 hkvj2 hπi hπj
                  exact ⟨by omega, hππ⟩
    intro dict v path t dict' h
    match v with
    | .prim p =>
      refine ⟨fun a hr => ?_, fun a π₁ π₂ hπ₁ hπ₂ => ?_⟩
      · obtain ⟨π, hπ⟩ := hr
        cases hπ
      · cases hπ₁
    | .sym k de =>
      refine ⟨fun a hr => ?_, fun a π₁ π₂ hπ₁ hπ₂ => ?_⟩
      · obtain ⟨π, hπ⟩ := hr
        cases hπ
      · cases hπ₁
    | .fn name =>
      refine ⟨fun a hr => ?_, fun a π₁ π₂ hπ₁ hπ₂ => ?_⟩
      · obtain ⟨π, hπ⟩ := hr
        cases hπ
      · cases hπ₁
    | .addr b =>
      simp only [ser] at h
      cases hl : lookupD dict b with
      | some p =>
        rw [hl] at h
        dsimp only at h
        rw [hnr] at h
        cases h
      | none =>
        rw [hl] at h
        dsimp only at h
        have hbfresh : b ∉ keysD dict := lookupD_eq_none.mp hl
        cases hg : H.get? b with
        | none => rw [hg] at h; cases h
        | some o =>
          rw [hg] at h
          match o with
          | .harr elems =>
            dsimp only at h
            cases h2 : serSeq (ser H cv opts fuel) ((b, path) :: dict) elems path 0 with
            | error e => rw [h2] at h; cases h
            | ok r =>
              obtain ⟨ts2, d2⟩ := r
              rw [h2] at h
              dsimp only at h
              cases h
              obtain ⟨hA, hB⟩ := hseqU elems ((b, path) :: dict) path 0 ts2 dict' h2
              have hgrow : ∃ Δ, dict' = Δ ++ (b, path) :: dict :=
                serSeq_ok_grow H cv opts fuel elems ((b, path) :: dict) path 0 ts2 dict' h2
              have hbin : b ∈ keysD dict' := keysD_mono hgrow (by simp [keysD])
              constructor
              · intro a hr
                obtain ⟨π, hπ⟩ := hr
                cases hπ with
                | here => exact ⟨hbin, hbfresh⟩
                | step _ o2 i c π' _ hg2 hig hπ' =>
                  rw [hg] at hg2
                  cases hg2
                  have hc : elems.get? i = some c := by simpa [childVals] using hig
                  have := hA i c hc a ⟨π', hπ'⟩
                  exact ⟨this.1, fun hmem => this.2 (List.mem_cons.mpr (Or.inr hmem))⟩
              · intro a π₁ π₂ hπ₁ hπ₂
                cases hπ₁ with
                | here =>
                  cases hπ₂ with
                  | here => rfl
                  | step _ o2 j c π' _ hg2 hig hπ' =>
                    exfalso
                    rw [hg] at hg2
                    cases hg2
                    have hc : elems.get? j = some c := by simpa [childVals] using hig
                    exact (hA j c hc b ⟨π', hπ'⟩).2 (List.mem_cons.mpr (Or.inl rfl))
                | step _ o2 i c π' _ hg2 hig hπ' =>
                  rw [hg] at hg2
                  cases hg2
                  have hc : elems.get? i = some c := by simpa [childVals] using hig
                  cases hπ₂ with
                  | here =>
                    exfalso
                    exact (hA i c hc b ⟨π', hπ'⟩).2 (List.mem_cons.mpr (Or.inl rfl))
                  | step _ o3 j c2 π'' _ hg3 hig2 hπ'' =>
                    rw [hg] at hg3
                    cases hg3
                    have hc2 : elems.get? j = some c2 := by simpa [childVals] using hig2
                    obtain ⟨hij, hππ⟩ := hB i j c c2 a π' π'' hc hc2 hπ' hπ''
                    rw [hij, hππ]
          | .hobj fields =>
            dsimp only at h
            cases h2 : serFields (ser H cv opts fuel) ((b, path) :: dict) fields path with
            | error e => rw [h2] at h; cases h
            | ok r =>
              obtain ⟨ts2, d2⟩ := r
              rw [h2] at h
              dsimp only at h
              cases h
              obtain ⟨hA, hB⟩ := hfldsU fields ((b, path) :: dict) path ts2 dict' h2
              have hgrow : ∃ Δ, dict' = Δ ++ (b, path) :: dict :=
                serFields_ok_grow H cv opts fuel fields ((b, path) :: dict) path ts2 dict' h2
              have hbin : b ∈ keysD dict' := keysD_mono hgrow (by simp [keysD])
              have hchild : ∀ i c, (childVals (.hobj fields)).get? i = some c →
                  ∃ kv, fields.get? i = some kv ∧ kv.2 = c := by
                intro i c hic
                simp only [childVals, List.get?_map] at hic
                cases hkv : fields.get? i with
                | none => rw [hkv] at hic; cases hic
                | some kv =>
                  rw [hkv] at hic
                  refine ⟨kv, rfl, ?_⟩
                  simpa using hic
              constructor
              · intro a hr
                obtain ⟨π, hπ⟩ := hr
                cases hπ with
                | here => exact ⟨hbin, hbfresh⟩
                | step _ o2 i c π' _ hg2 hig hπ' =>
                  rw [hg] at hg2
                  cases hg2
                  obtain ⟨kv, hkv, rfl⟩ := hchild i c hig
                  have := hA i kv hkv a ⟨π', hπ'⟩
                  exact ⟨this.1, fun hmem => this.2 (List.mem_cons.mpr (Or.inr hmem))⟩
              · intro a π₁ π₂ hπ₁ hπ₂
                cases hπ₁ with
                | here =>
                  cases hπ₂ with
                  | here => rfl
                  | step _ o2 j c π' _ hg2 hig hπ' =>
                    exfalso
                    rw [hg] at hg2
                    cases hg2
                    obtain ⟨kv, hkv, rfl⟩ := hchild j c hig
                    exact (hA j kv hkv b ⟨π', hπ'⟩).2 (List.mem_cons.mpr (Or.inl rfl))
                | step _ o2 i c π' _ hg2 hig hπ' =>
                  rw [hg] at hg2
                  cases hg2
                  obtain ⟨kv, hkv, rfl⟩ := hchild i c hig
                  cases hπ₂ with
                  | here =>
                    exfalso
                    exact (hA i kv hkv b ⟨π', hπ'⟩).2 (List.mem_cons.mpr (Or.inl rfl))
                  | step _ o3 j c2 π'' _ hg3 hig2 hπ'' =>
                    rw [hg] at hg3
                    cases hg3
                    obtain ⟨kv2, hkv2, rfl⟩ := hchild j c2 hig2
                    obtain ⟨hij, hππ⟩ := hB i j kv kv2 a π' π'' hkv hkv2 hπ' hπ''
                    rw [hij, hππ]
          | .htyped ctor st =>
            dsimp only at h
            cases hc : cv ctor with
            | none => rw [hc] at h; cases h
            | some c =>
              rw [hc] at h
              dsimp only at h
              cases h2 : ser H cv opts fuel ((b, path) :: dict) st path with
              | error e => rw [h2] at h; cases h
              | ok r =>
                obtain ⟨i2, d2⟩ := r
                rw [h2] at h
                dsimp only at h
                cases h
                obtain ⟨hM1, hU1⟩ := ih ((b, path) :: dict) st path i2 dict' h2
                have hgrow : ∃ Δ, dict' = Δ ++ (b, path) :: dict :=
                  ser_ok_grow H cv opts fuel ((b, path) :: dict) st path i2 dict' h2
                have hbin : b ∈ keysD dict' := keysD_mono hgrow (by simp [keysD])
                have hchild : ∀ i c, (childVals (.htyped ctor st)).get? i = some c →
                    i = 0 ∧ c = st := by
                  intro i c hic
                  cases i with
                  | zero => exact ⟨rfl, (by simpa [childVals] using hic : st = c).symm⟩
                  | succ i => simp [childVals] at hic
                constructor
                · intro a hr
                  obtain ⟨π, hπ⟩ := hr
                  cases hπ with
                  | here => exact ⟨hbin, hbfresh⟩
                  | step _ o2 i c π' _ hg2 hig hπ' =>
                    rw [hg] at hg2
                    cases hg2
                    obtain ⟨rfl, rfl⟩ := hchild i c hig
                    have := hM1 a ⟨π', hπ'⟩
                    exact ⟨this.1, fun hmem => this.2 (List.mem_cons.mpr (Or.inr hmem))⟩
                · intro a π₁ π₂ hπ₁ hπ₂
                  cases hπ₁ with
                  | here =>
                    cases hπ₂ with
                    | here => rfl
                    | step _ o2 j c π' _ hg2 hig hπ' =>
                      exfalso
                      rw [hg] at hg2
                      cases hg2
                      obtain ⟨rfl, rfl⟩ := hchild j c hig
                      exact (hM1 b ⟨π', hπ'⟩).2 (List.mem_cons.mpr (Or.inl rfl))
                  | step _ o2 i c π' _ hg2 hig hπ' =>
                    rw [hg] at hg2
                    cases hg2
                    obtain ⟨rfl, rfl⟩ := hchild i c hig
                    cases hπ₂ with
                    | here =>
                      exfalso
                      exact (hM1 b ⟨π', hπ'⟩).2 (List.mem_cons.mpr (Or.inl rfl))
                    | step _ o3 j c2 π'' _ hg3 hig2 hπ'' =>
                      rw [hg] at hg3
                      cases hg3
                      obtain ⟨rfl, rfl⟩ := hchild j c2 hig2
                      rw [hU1 a π' π'' hπ' hπ'']

/-! ## Claim C5 -/

/-- C5: plain objects and arrays never require a registered converter —
an unregistered-type failure always names a reachable custom-typed
instance lacking one (first conjunct) — while a successful normalize call
certifies that every reachable custom-typed instance resolved a converter
by its type identifier (second conjunct); and under the default options a
reachable custom-typed instance without a converter makes the whole call
fail with an unregistered-type error (third conjunct).  The call returns
`Except.ok` or a single `Except.error` — no partial tree exists. -/
theorem c5_unregistered_type_errors :
    (∀ (d : Deserted) (H : Heap) (v : JSVal) (n : String),
      d.normalize H v = .error (.unregistered n) →
      ∃ a st, VReach H v a ∧ H.get? a = some (.htyped n st) ∧
        d.converters n = none) ∧
    (∀ (d : Deserted) (H : Heap) (v : JSVal) (t : SerItem),
      d.normalize H v = .ok t →
      ∀ a cn st, VReach H v a → H.get? a = some (.htyped cn st) →
        d.converters cn ≠ none) ∧
    (∀ (d : Deserted) (H : Heap) (v : JSVal),
      WFHeap H → ValBound H v → d.options.noRefs = false →
      (∃ a cn st, VReach H v a ∧ H.get? a = some (.htyped cn st) ∧
        d.converters cn = none) →
      ∃ m, d.normalize H v = .error (.unregistered m)) := by
  refine ⟨?_, ?_, ?_⟩
  · intro d H v n h
    exact ser_unregistered_reach H d.converters d.options (serFuel H) [] v [] n
      (normalize_error_ser h)
  · intro d H v t h a cn st hr hg
    obtain ⟨dict', hs⟩ := normalize_ok_ser h
    exact (ser_root_ok_reach H d.converters d.options (serFuel H) v t dict' hs
      a hr).2 cn st hg
  · intro d H v hwf hvb hnr ⟨a, cn, st, hr, hg, hc⟩
    cases hres : d.normalize H v with
    | ok t =>
      exfalso
      obtain ⟨dict', hs⟩ := normalize_ok_ser hres
      exact (ser_root_ok_reach H d.converters d.options (serFuel H) v t dict' hs
        a hr).2 cn st hg hc
    | error e =>
      have hse := normalize_error_ser hres
      rcases ser_error_shape H d.converters d.options (serFuel H) [] v [] e hse with
        rfl | rfl | ⟨rfl, hnr2⟩ | ⟨n, rfl⟩
      · exact absurd ((ser_no_fuel_error H d.converters d.options hwf (serFuel H)
          [] v [] hvb (dictOk_nil H) (by unfold serFuel; omega) _ hse).1) (by simp)
      · exact absurd ((ser_no_fuel_error H d.converters d.options hwf (serFuel H)
          [] v [] hvb (dictOk_nil H) (by unfold serFuel; omega) _ hse).2) (by simp)
      · rw [hnr] at hnr2; cases hnr2
      · exact ⟨n, rfl⟩

/-- C5 witness: an instance of the unregistered class `Unreg` makes the
whole call fail with the unregistered-type error, and the error names a
reachable instance. -/
theorem c5_witness :
    (∃ m, Deserted.default.normalize [.htyped "Unreg" (.prim .vnull)] (.addr 0) =
      .error (.unregistered m)) ∧
    (∃ a st, VReach [.htyped "Unreg" (.prim .vnull)] (.addr 0) a ∧
      List.get? [HeapObj.htyped "Unreg" (.prim .vnull)] a =
        some (.htyped "Unreg" st) ∧
      Deserted.default.converters "Unreg" = none) := by
  constructor
  · exact c5_unregistered_type_errors.2.2 Deserted.default
      [.htyped "Unreg" (.prim .vnull)] (.addr 0) (by decide) (by decide) rfl
      ⟨0, "Unreg", .prim .vnull, ⟨[], .here 0⟩, rfl, rfl⟩
  · exact c5_unregistered_type_errors.1 Deserted.default
      [.htyped "Unreg" (.prim .vnull)] (.addr 0) "Unreg" rfl

/-! ## Claim C4 -/

/-- C4 counterexample: the claim quantifies over *every* input with two
references to the same non-primitive, but an input that also contains an
instance of an unregistered class breaks both halves: `[u, u]` with `u`
an instance of the unregistered class `Unreg` is shared (two distinct
access paths to address 0), yet with `noRefs=true` normalize fails with
the unregistered-type error rather than the circular-reference error, and
with the default `noRefs=false` it fails instead of succeeding. -/
theorem c4_unregistered_counterexample :
    AccPath [.htyped "Unreg" (.prim .vnull), .harr [.addr 0, .addr 0]]
      (.addr 1) [0] 0 ∧
    AccPath [.htyped "Unreg" (.prim .vnull), .harr [.addr 0, .addr 0]]
      (.addr 1) [1] 0 ∧
    ([0] : List Nat) ≠ [1] ∧
    ({ converters := Deserted.default.converters, options := ⟨true⟩ } :
        Deserted).normalize
      [.htyped "Unreg" (.prim .vnull), .harr [.addr 0, .addr 0]] (.addr 1) =
      .error (.unregistered "Unreg") ∧
    Deserted.default.normalize
      [.htyped "Unreg" (.prim .vnull), .harr [.addr 0, .addr 0]] (.addr 1) =
      .error (.unregistered "Unreg") :=
  ⟨.step 1 (.harr [.addr 0, .addr 0]) 0 (.addr 0) [] 0 rfl rfl (.here 0),
   .step 1 (.harr [.addr 0, .addr 0]) 1 (.addr 0) [] 0 rfl rfl (.here 0),
   by decide, rfl, rfl⟩

/-- C4 amended: restricted to inputs whose reachable custom-typed
composites all have registered converters, the claim holds: with
`noRefs=true`, normalizing any value containing two references to the
same non-primitive or any cycle (`Shared`) fails with the
circular-reference error; with the default `noRefs=false` the same inputs
(indeed all such inputs) succeed. -/
theorem c4_noRefs_enforcement_amended (cvr : Config) (H : Heap) (v : JSVal)
    (hwf : WFHeap H) (hvb : ValBound H v)
    (hreg : ∀ a cn st, VReach H v a → H.get? a = some (.htyped cn st) →
      cvr cn ≠ none) :
    (Shared H v →
      ({ converters := cvr, options := ⟨true⟩ } : Deserted).normalize H v =
        .error .circular) ∧
    (∃ t, ({ converters := cvr, options := ⟨false⟩ } : Deserted).normalize H v =
      .ok t) := by
  constructor
  · intro ⟨a, π₁, π₂, hne, hπ₁, hπ₂⟩
    cases hres : ({ converters := cvr, options := ⟨true⟩ } : Deserted).normalize H v with
    | ok t =>
      exfalso
      obtain ⟨dict', hs⟩ := normalize_ok_ser hres
      exact hne ((ser_noRefs_unique H cvr ⟨true⟩ rfl (serFuel H) [] v []
        t dict' hs).2 a π₁ π₂ hπ₁ hπ₂)
    | error e =>
      have hse := normalize_error_ser hres
      rcases ser_error_shape H cvr ⟨true⟩ (serFuel H) [] v [] e hse with
        rfl | rfl | ⟨rfl, -⟩ | ⟨n, rfl⟩
      · exact absurd ((ser_no_fuel_error H cvr ⟨true⟩ hwf (serFuel H)
          [] v [] hvb (dictOk_nil H) (by unfold serFuel; omega) _ hse).1) (by simp)
      · exact absurd ((ser_no_fuel_error H cvr ⟨true⟩ hwf (serFuel H)
          [] v [] hvb (dictOk_nil H) (by unfold serFuel; omega) _ hse).2) (by simp)
      · rfl
      · exfalso
        obtain ⟨a2, st, hr, hg, hc⟩ := ser_unregistered_reach H cvr ⟨true⟩
          (serFuel H) [] v [] n hse
        exact hreg a2 n st hr hg hc
  · cases hres : ({ converters := cvr, options := ⟨false⟩ } : Deserted).normalize H v with
    | ok t => exact ⟨t, rfl⟩
    | error e =>
      exfalso
      have hse := normalize_error_ser hres
      rcases ser_error_shape H cvr ⟨false⟩ (serFuel H) [] v [] e hse with
        rfl | rfl | ⟨rfl, hnr2⟩ | ⟨n, rfl⟩
      · exact absurd ((ser_no_fuel_error H cvr ⟨false⟩ hwf (serFuel H)
          [] v [] hvb (dictOk_nil H) (by unfold serFuel; omega) _ hse).1) (by simp)
      · exact absurd ((ser_no_fuel_error H cvr ⟨false⟩ hwf (serFuel H)
          [] v [] hvb (dictOk_nil H) (by unfold serFuel; omega) _ hse).2) (by simp)
      · cases hnr2
      · obtain ⟨a2, st, hr, hg, hc⟩ := ser_unregistered_reach H cvr ⟨false⟩
          (serFuel H) [] v [] n hse
        exact hreg a2 n st hr hg hc

/-- C4 witness: `[s, s]` with `s` a plain object — with `noRefs=true`
normalize fails with the circular-reference error, with the default it
succeeds. -/
theorem c4_witness :
    ({ converters := Deserted.default.converters, options := ⟨true⟩ } :
        Deserted).normalize [.hobj [], .harr [.addr 0, .addr 0]] (.addr 1) =
      .error .circular ∧
    (∃ t, ({ converters := Deserted.default.converters, options := ⟨false⟩ } :
        Deserted).normalize [.hobj [], .harr [.addr 0, .addr 0]] (.addr 1) =
      .ok t) := by
  have hreg : ∀ a cn st,
      VReach [HeapObj.hobj [], HeapObj.harr [.addr 0, .addr 0]] (.addr 1) a →
      List.get? [HeapObj.hobj [], HeapObj.harr [.addr 0, .addr 0]] a =
        some (.htyped cn st) →
      Deserted.default.converters cn ≠ none := by
    intro a cn st hr hg
    match a, hg with
    | 0, hg => simp at hg
    | 1, hg => simp at hg
    | n + 2, hg => simp at hg
  have h := c4_noRefs_enforcement_amended Deserted.default.converters
    [.hobj [], .harr [.addr 0, .addr 0]] (.addr 1) (by decide) (by decide) hreg
  refine ⟨h.1 ⟨0, [0], [1], by decide,
    .step 1 (.harr [.addr 0, .addr 0]) 0 (.addr 0) [] 0 rfl rfl (.here 0),
    .step 1 (.harr [.addr 0, .addr 0]) 1 (.addr 0) [] 0 rfl rfl (.here 0)⟩, h.2⟩

/-! ## Claim C7 -/

/-- C7: when normalize meets an unvisited custom-typed instance (address
`a`) with a registered converter, the extracted state (address `b`) is
normalized at the same path, so both end up recorded in the identity map
at that very path — the instance's canonical path and its state-subtree's
canonical path coincide — and a later reference against either address
resolves to the same location. -/
theorem c7_typed_state_same_path (H : Heap) (cv : Config) (opts : Options)
    (hwf : WFHeap H) (fuel : Nat) (dict : Dict) (path : Path)
    (a b : Nat) (c : String) (t : SerItem) (dict' : Dict)
    (hheap : H.get? a = some (.htyped c (.addr b)))
    (hok : ser H cv opts fuel dict (.addr a) path = .ok (t, dict'))
    (hfa : lookupD dict a = none) (hfb : lookupD dict b = none)
    (hab : a ≠ b) (hd : DictOk H dict) (hnr : opts.noRefs = false) :
    (∃ st, t = .proto c st) ∧
    lookupD dict' a = some path ∧ lookupD dict' b = some path ∧
    (∀ (fuel' : Nat) (q : Path),
      ser H cv opts (fuel' + 1) dict' (.addr a) q = .ok (.ref path, dict') ∧
      ser H cv opts (fuel' + 1) dict' (.addr b) q = .ok (.ref path, dict')) := by
  obtain ⟨ha, -⟩ := List.get?_eq_some.mp hheap
  have hcb := childVals_bound hwf hheap
  have hbv : ValBound H (.addr b) := hcb (.addr b) (by simp [childVals])
  obtain ⟨hd1, -⟩ := DictOk.insert (p := path) hd ha hfa
  have hmiss1 : lookupD ((a, path) :: dict) b = none := by
    rw [lookupD, if_neg hab]
    exact hfb
  match fuel with
  | 0 => cases hok
  | fuel + 1 =>
    simp only [ser] at hok
    rw [hfa] at hok
    dsimp only at hok
    rw [hheap] at hok
    dsimp only at hok
    cases hcv : cv c with
    | none => rw [hcv] at hok; cases hok
    | some cvc =>
      rw [hcv] at hok
      dsimp only at hok
      cases hin : ser H cv opts fuel ((a, path) :: dict) (.addr b) path with
      | error e => rw [hin] at hok; cases hok
      | ok r =>
        obtain ⟨st', d2⟩ := r
        rw [hin] at hok
        dsimp only at hok
        cases hok
        obtain ⟨⟨Δ, hΔ⟩, hd'⟩ := ser_ok_preserve H cv opts hwf fuel
          ((a, path) :: dict) (.addr b) path st' dict' hin hbv hd1
        have hmem_a : (a, path) ∈ dict' := by rw [hΔ]; simp
        have hmem_b : (b, path) ∈ dict' :=
          ser_addr_miss_mem H cv opts hwf fuel ((a, path) :: dict) b path
            st' dict' hin hmiss1 hbv hd1
        have hla := lookupD_of_mem_nodup hd'.1 hmem_a
        have hlb := lookupD_of_mem_nodup hd'.1 hmem_b
        refine ⟨⟨st', rfl⟩, hla, hlb, fun fuel' q => ⟨?_, ?_⟩⟩
        · simp [ser, hla, hnr]
        · simp [ser, hlb, hnr]

/-- C7 witness: a `Date`-like typed instance at address 0 whose extracted
state is the array at address 1; both are recorded at the root path. -/
theorem c7_witness :
    ser [.htyped "Date" (.addr 1), .harr []] defaultConverters defaultOptions
      (serFuel [.htyped "Date" (.addr 1), .harr []]) [] (.addr 0) [] =
      .ok (.proto "Date" (.arr []), [(1, []), (0, [])]) ∧
    lookupD [(1, ([] : Path)), (0, [])] 0 = some [] ∧
    lookupD [(1, ([] : Path)), (0, [])] 1 = some [] := by
  refine ⟨rfl, ?_, ?_⟩
  · exact (c7_typed_state_same_path [.htyped "Date" (.addr 1), .harr []]
      defaultConverters defaultOptions (by decide) 7 [] [] 0 1 "Date"
      (.proto "Date" (.arr [])) [(1, []), (0, [])] rfl rfl rfl rfl
      (by decide) ⟨List.nodup_nil, fun k hk => absurd hk (List.not_mem_nil k)⟩
      rfl).2.1
  · exact (c7_typed_state_same_path [.htyped "Date" (.addr 1), .harr []]
      defaultConverters defaultOptions (by decide) 7 [] [] 0 1 "Date"
      (.proto "Date" (.arr [])) [(1, []), (0, [])] rfl rfl rfl rfl
      (by decide) ⟨List.nodup_nil, fun k hk => absurd hk (List.not_mem_nil k)⟩
      rfl).2.2.1

/-! ## Claim C6 -/

end Deserted
